import Mathlib

/-! Verification development for the news aggregation-and-ranking engine
(News-Weather-App).  The JavaScript core (`refreshNews` in
`src/context/NewsContext.jsx` and `calculateProximityScore` in
`src/utils/proximityScorer.js`) is shallowly embedded: JS objects become
insertion-ordered association lists, JS numbers become rationals,
fallible adapter calls become an explicit outcome type, and the
side-effecting refresh cycle becomes a pure function that additionally
returns the trace of fetch and publish events it performed.
-/

namespace NewsApp

/-- JS objects with string keys, modelled as insertion-ordered
association lists (JS objects preserve insertion order for string keys;
objects built only through assignment never hold duplicate keys). -/
abbrev StrMap (α : Type) := List (String × α)

namespace StrMap

/-- Property lookup `m[k]`: first entry with key `k`, if any. -/
def find? {α : Type} : StrMap α → String → Option α
  | [], _ => none
  | (k, v) :: m, q => if k = q then some v else StrMap.find? m q

/-- Property assignment `m[k] = v`: overwrite in place if the key
exists (JS keeps the original insertion position), else append. -/
def set {α : Type} : StrMap α → String → α → StrMap α
  | [], q, v => [(q, v)]
  | (k, w) :: m, q, v => if k = q then (q, v) :: m else (k, w) :: StrMap.set m q v

/-- Object spread / `Object.assign(m1, m2)`: fold assignments of the
entries of `m2` over `m1`. -/
def merge {α : Type} (m1 : StrMap α) : StrMap α → StrMap α
  | [] => m1
  | p :: m2 => StrMap.merge (m1.set p.1 p.2) m2

/-- JS `Object.values(m)` in entry order. -/
def values {α : Type} (m : StrMap α) : List α := m.map Prod.snd

end StrMap

/-- A normalized article record, as produced by a source adapter.
Numeric scores are modelled as rationals; fields that JS may leave
`undefined` are `Option`s. -/
structure Article where
  title : String
  link : String
  source : String
  publishedAt : Option Int
  /-- The JS `section` property (renamed: `section` is a Lean keyword). -/
  sectionField : Option String
  impactScore : Option ℚ
  breakingScore : Option ℚ
  isBreaking : Bool
deriving DecidableEq

/-- Classification `item.section || 'uncategorized'`: the adapter-declared section when
present and non-empty, else the sentinel bucket. -/
def classifySection (a : Article) : String :=
  match a.sectionField with
  | none => "uncategorized"
  | some s => if s = "" then "uncategorized" else s

/-- The read `item.impactScore || 0` (a missing score counts as 0). -/
def impactOf (a : Article) : ℚ := a.impactScore.getD 0

/-- The read `item.breakingScore || 0` (a missing score counts as 0). -/
def breakingOf (a : Article) : ℚ := a.breakingScore.getD 0

/-- One step of the stable descending sort used by
`.sort((a, b) => (b.key || 0) - (a.key || 0))`: insert `a` before the
first element whose key is not strictly greater, so that ties keep the
original relative order. -/
def insertDescBy (key : Article → ℚ) (a : Article) : List Article → List Article
  | [] => [a]
  | b :: l => if key a < key b then b :: insertDescBy key a l else a :: b :: l

/-- Stable sort, descending by `key` (ES2019 `Array.prototype.sort` is
required to be stable; the stable descending permutation is unique, and
this insertion sort computes it). -/
def sortDescBy (key : Article → ℚ) : List Article → List Article
  | [] => []
  | a :: l => insertDescBy key a (sortDescBy key l)

/-- Descending on adjacent pairs: `key l[i+1] ≤ key l[i]`. -/
def DescendingBy (key : Article → ℚ) (l : List Article) : Prop :=
  List.Chain' (fun x y => key y ≤ key x) l

instance (key : Article → ℚ) (l : List Article) : Decidable (DescendingBy key l) :=
  @List.decidableChain' Article (fun x y => key y ≤ key x)
    (fun x y => inferInstanceAs (Decidable (key y ≤ key x))) l

/-- Per-section configuration entry `settings.sections[key]`. -/
structure SectionCfg where
  enabled : Bool
  count : Option Nat
deriving DecidableEq

/-- The configuration snapshot returned by `getSettings()`, restricted to
the fields the embedded core reads. -/
structure Settings where
  sections : StrMap SectionCfg
  newsSources : StrMap Bool
  freshnessLimitHours : Int
  enableCache : Bool
  /-- Read through `settings.enableProximityScoring === false`; `none`
  models the property being absent (`undefined`). -/
  enableProximityScoring : Option Bool
  uiMode : String
deriving DecidableEq

/-- The read `settings.sections[key]?.count || 10`: a missing or zero configured
count falls back to the default 10 (JS `||` treats 0 as falsy). -/
def jsCount (c : Option Nat) : Nat :=
  match c with
  | some n => if n = 0 then 10 else n
  | none => 10

/-- Truthiness of `settings.sections[key]?.enabled`. -/
def enabledIn (settings : Settings) (k : String) : Bool :=
  match settings.sections.find? k with
  | some cfg => cfg.enabled
  | none => false

/-- The read `settings.sections[key]?.count` (absent when the section has no
configuration entry). -/
def sectionCount (settings : Settings) (k : String) : Option Nat :=
  match settings.sections.find? k with
  | some cfg => cfg.count
  | none => none

/-- Result of one `fetchSectionNews` adapter call: a resolved article
array, a resolved non-array value (`articles && Array.isArray(articles)`
fails), or a rejection carrying `err.message`. -/
inductive FetchOutcome where
  | ok (articles : List Article)
  | nonArray
  | fail (msg : String)
deriving DecidableEq

/-- Adapter behaviour: section key, target count, per-source enable map. -/
abbrev Fetcher := String → Nat → StrMap Bool → FetchOutcome

/-- The articles a fetch contributes: the array on success, else none. -/
def outcomeList : FetchOutcome → List Article
  | .ok articles => articles
  | .nonArray => []
  | .fail _ => []

/-- The `allFetched.forEach` push loop of the redistribution pass:
append each article to the bucket named by its own classified section,
creating the bucket when absent. -/
def pushAll (m : StrMap (List Article)) : List Article → StrMap (List Article)
  | [] => m
  | a :: rest =>
    let s := classifySection a
    let m2 := match m.find? s with
      | some l => m.set s (l ++ [a])
      | none => m.set s [a]
    pushAll m2 rest

/-- JS `Object.values(m).flat()`: every accumulated article, in bucket
order. -/
def flattenValues (m : StrMap (List Article)) : List Article :=
  m.values.flatten

/-- The redistribution pass of `refreshNews`: initialize an empty bucket
for every fetched key, rebucket every accumulated article by its own
classified section, then sort each bucket by `impactScore` descending. -/
def redistribute (m : StrMap (List Article)) : StrMap (List Article) :=
  let init : StrMap (List Article) := m.map (fun p => (p.1, []))
  let buckets := pushAll init (flattenValues m)
  buckets.map (fun p => (p.1, sortDescBy impactOf p.2))

/-- The source's breaking cutoff literal `1.5`, written as an exact
rational so that concrete evaluations reduce (the decimal-literal
coercion on `ℚ` is irreducible); `breakingThreshold_eq_lit` proves it
equal to the literal. -/
def breakingThreshold : ℚ := mkRat 3 2

/-- The breaking-news filter
`item.isBreaking || (item.breakingScore && item.breakingScore > 1.5)`
(a missing or zero `breakingScore` is falsy and short-circuits). -/
def breakingCond (item : Article) : Bool :=
  item.isBreaking ||
    (match item.breakingScore with
     | some s => if s = 0 then false else decide (s > breakingThreshold)
     | none => false)

/-- The breaking-news shortlist: filter the accumulated articles, sort
by `breakingScore` descending, keep the first three. -/
def computeBreaking (allFetched : List Article) : List Article :=
  (sortDescBy breakingOf (allFetched.filter breakingCond)).take 3

/-- The externally published state of the provider. -/
structure NewsState where
  newsData : StrMap (List Article)
  breakingNews : List Article
  errors : StrMap String
  lastFetch : Int
  loading : Bool
deriving DecidableEq

/-- Observable events of one refresh cycle: adapter invocations and
snapshot publishes.  A publish records the accumulated (pre-
redistribution) map alongside the published fields. -/
inductive Event where
  | fetch (sectionKey : String) (targetCount : Nat) (sources : StrMap Bool)
  | publish (accumulated : StrMap (List Article)) (newsData : StrMap (List Article))
      (breakingNews : List Article) (errors : StrMap String)
deriving DecidableEq

/-- The per-section body of one batch's `Promise.all`: skip sections not
marked enabled, otherwise invoke the adapter with `count + 5` and record
either its articles or its error message.  Processed sequentially here;
the JS promises all settle before the batch continues, and no claim
depends on the settlement order. -/
def runBatchAux (settings : Settings) (fetchFn : Fetcher) :
    List String → StrMap (List Article) × StrMap String × List Event →
      StrMap (List Article) × StrMap String × List Event
  | [], acc => acc
  | key :: rest, (results, errs, evs) =>
    let acc2 :=
      match settings.sections.find? key with
      | none => (results, errs, evs)
      | some cfg =>
        if cfg.enabled then
          let target := jsCount cfg.count + 5
          let ev := Event.fetch key target settings.newsSources
          match fetchFn key target settings.newsSources with
          | .ok articles => (results.set key articles, errs, evs ++ [ev])
          | .nonArray => (results.set key [], errs, evs ++ [ev])
          | .fail msg => (results.set key [], errs.set key msg, evs ++ [ev])
        else (results, errs, evs)
    runBatchAux settings fetchFn rest acc2

/-- The `for (const batch of batches)` loop: fetch the batch, merge into
the accumulated map, redistribute, publish the merged snapshot and the
recomputed breaking shortlist. -/
def processBatches (settings : Settings) (fetchFn : Fetcher) :
    List (List String) → StrMap (List Article) → NewsState → List Event →
      NewsState × List Event
  | [], _, st, trace => (st, trace)
  | batch :: rest, allCollected, st, trace =>
    let fetched := runBatchAux settings fetchFn batch ([], [], [])
    let allCollected2 := allCollected.merge fetched.1
    let redistributed := redistribute allCollected2
    let newsData2 := st.newsData.merge redistributed
    let errors2 := st.errors.merge fetched.2.1
    let breaking := computeBreaking (flattenValues allCollected2)
    let st2 := { st with newsData := newsData2, errors := errors2,
                         breakingNews := breaking }
    processBatches settings fetchFn rest allCollected2 st2
      (trace ++ fetched.2.2 ++ [Event.publish allCollected2 newsData2 breaking errors2])

/-- The full configured section list of `refreshNews`. -/
def allSections : List String :=
  ["world", "india", "chennai", "trichy", "local", "social", "entertainment",
   "business", "technology"]

/-- The fixed high-priority subset (main-page sections). -/
def highPrioritySections : List String := ["world", "india", "chennai", "trichy"]

/-- The entry point `refreshNews(specificSections)`: abort early when the configuration
store returns nothing, otherwise resolve the section list, split it into
the two priority batches (skipping empty ones), run them sequentially,
and finally record the completion timestamp.  Returns the final state
together with the event trace. -/
def refreshNews (settingsOpt : Option Settings) (fetchFn : Fetcher) (now : Int)
    (specificSections : Option (List String)) (st : NewsState) :
    NewsState × List Event :=
  match settingsOpt with
  | none => ({ st with loading := false }, [])
  | some settings =>
    let sectionsToFetch := specificSections.getD allSections
    let hp := sectionsToFetch.filter (fun s => highPrioritySections.contains s)
    let lp := sectionsToFetch.filter (fun s => !highPrioritySections.contains s)
    let batches := ([hp, lp] : List (List String)).filter (fun b => !b.isEmpty)
    let run := processBatches settings fetchFn batches [] { st with loading := true } []
    ({ run.1 with lastFetch := now, loading := false }, run.2)

/-- The settings fingerprint tracked by the Phase 6 change monitor:
`JSON.stringify` of sources, freshness limit and cache toggle, modelled
structurally (`stringify` is injective on these values given the
preserved key insertion order). -/
structure Fingerprint where
  sources : StrMap Bool
  freshness : Int
  enableCache : Bool
deriving DecidableEq

/-- Fingerprint of a configuration snapshot. -/
def fingerprintOf (s : Settings) : Fingerprint :=
  ⟨s.newsSources, s.freshnessLimitHours, s.enableCache⟩

/-- Outcome of one evaluation of the change-monitor effect. -/
structure MonitorResult where
  storedHash : Option Fingerprint
  cacheClears : Nat
  refreshCalls : List (Option (List String))
deriving DecidableEq

/-- One evaluation of the settings-watch effect: compute the new
fingerprint; when a previous one exists (the initial `''` state is
falsy, modelled as `none`) and differs, clear the cache and call
`refreshNews()` (i.e. `refresh(null)`); always store the new
fingerprint. -/
def monitorStep (settings : Settings) (stored : Option Fingerprint) : MonitorResult :=
  let nh := fingerprintOf settings
  match stored with
  | none => ⟨some nh, 0, []⟩
  | some h => if h ≠ nh then ⟨some nh, 1, [none]⟩ else ⟨some nh, 0, []⟩

/-- JS `s.toLowerCase()`, character by character over the string's
underlying character list (structurally recursive, unlike the library's
position-based `String.toLower`, so concrete evaluations reduce). -/
def jsToLower (s : String) : String :=
  String.mk (s.data.map Char.toLower)

/-- Whether `pat` is a prefix of `text`, over character lists. -/
def startsWithChars : List Char → List Char → Bool
  | _, [] => true
  | [], _ :: _ => false
  | t :: ts, p :: ps => t = p && startsWithChars ts ps

/-- Whether `pat` occurs contiguously inside `text`, over character
lists. -/
def containsChars : List Char → List Char → Bool
  | [], pat => pat.isEmpty
  | t :: ts, pat => startsWithChars (t :: ts) pat || containsChars ts pat

/-- JS `text.includes(pat)`: substring containment (the empty pattern
always matches). -/
def jsIncludes (text pat : String) : Bool :=
  containsChars text.data pat.data

/-- The `for (const [locationName, data] of Object.entries(LOCATIONS))`
loop of `calculateProximityScore`: keep the largest boost among matching
gazetteer entries, starting from the running maximum. -/
def proximityFold (text : String) : StrMap ℚ → ℚ → ℚ
  | [], maxBoost => maxBoost
  | p :: rest, maxBoost =>
    proximityFold text rest
      (if jsIncludes text (jsToLower p.1) then
        if p.2 > maxBoost then p.2 else maxBoost
       else maxBoost)

/-- The scorer `calculateProximityScore(title, description)` from
`src/utils/proximityScorer.js`, with the gazetteer `LOCATIONS`
(whose data file `../data/geolocation.js` is not part of the core
source) and the settings snapshot as parameters: disabled scoring
returns exactly 1.0; otherwise scan the gazetteer, keeping the largest
boost whose location name occurs case-insensitively in the concatenated
title and description. -/
def calculateProximityScore (locations : StrMap ℚ) (settings : Settings)
    (title description : String) : ℚ :=
  if settings.enableProximityScoring = some false then 1
  else
    let text := jsToLower (title ++ " " ++ description)
    proximityFold text locations 1

/-- Every article of every bucket of `m` carries the bucket's key as its
own classified section. -/
def ClassifiedMap (m : StrMap (List Article)) : Prop :=
  ∀ e ∈ m, ∀ a ∈ e.2, classifySection a = e.1

/-- Every bucket of `m` is non-increasing in `impactScore` on adjacent
pairs. -/
def SortedMap (m : StrMap (List Article)) : Prop :=
  ∀ e ∈ m, DescendingBy impactOf e.2

instance (m : StrMap (List Article)) : Decidable (ClassifiedMap m) :=
  inferInstanceAs (Decidable (∀ e ∈ m, ∀ a ∈ e.2, classifySection a = e.1))

instance (m : StrMap (List Article)) : Decidable (SortedMap m) :=
  inferInstanceAs (Decidable (∀ e ∈ m, DescendingBy impactOf e.2))

/-- Number of adapter invocations for section `k` in a trace. -/
def fetchCount (k : String) (evs : List Event) : Nat :=
  (evs.filter (fun e => match e with
    | .fetch s _ _ => s = k
    | .publish _ _ _ _ => false)).length

/-- Number of snapshot publishes in a trace. -/
def pubCount (evs : List Event) : Nat :=
  (evs.filter (fun e => match e with
    | .fetch _ _ _ => false
    | .publish _ _ _ _ => true)).length

/-- Number of occurrences of section key `k` in a requested list. -/
def occCount (k : String) (l : List String) : Nat :=
  (l.filter (fun s => s = k)).length

/-- Every fetch event of the trace was issued for an enabled configured
section, with target count `(count || 10) + 5` and the configured
per-source enable map. -/
def FetchShape (settings : Settings) (ev : Event) : Prop :=
  ∀ k c srcs, ev = .fetch k c srcs →
    srcs = settings.newsSources ∧
    ∃ cfg, settings.sections.find? k = some cfg ∧ cfg.enabled = true ∧
      c = jsCount cfg.count + 5

/-- A publish event's published section map satisfies the
classification invariant (vacuous for fetch events). -/
def PubClassified (ev : Event) : Prop :=
  ∀ acc nd bk er, ev = .publish acc nd bk er → ClassifiedMap nd

/-- A publish event's published section map satisfies the sort
invariant (vacuous for fetch events). -/
def PubSorted (ev : Event) : Prop :=
  ∀ acc nd bk er, ev = .publish acc nd bk er → SortedMap nd

/-- A publish event's shortlist is the breaking computation over its
accumulated set (vacuous for fetch events). -/
def PubBreaking (ev : Event) : Prop :=
  ∀ acc nd bk er, ev = .publish acc nd bk er →
    bk = computeBreaking (flattenValues acc)

/-- No entry of `m` is keyed by `k` and no article of `m` classifies
into `k`. -/
def AvoidsKey (k : String) (m : StrMap (List Article)) : Prop :=
  ∀ e ∈ m, e.1 ≠ k ∧ ∀ a ∈ e.2, classifySection a ≠ k

/-- The event `ev` leaves section key `k` untouched: an adapter
invocation neither requests section `k` nor returns any article that
classifies into `k` (publish events hold vacuously, they fetch
nothing). -/
def FetchAvoids (fetchFn : Fetcher) (k : String) : Event → Prop
  | .fetch s c srcs =>
    s ≠ k ∧ ∀ a ∈ outcomeList (fetchFn s c srcs), classifySection a ≠ k
  | .publish _ _ _ _ => True

instance (fetchFn : Fetcher) (k : String) (ev : Event) :
    Decidable (FetchAvoids fetchFn k ev) :=
  match ev with
  | .fetch s c srcs => inferInstanceAs (Decidable (s ≠ k ∧
      ∀ a ∈ outcomeList (fetchFn s c srcs), classifySection a ≠ k))
  | .publish _ _ _ _ => inferInstanceAs (Decidable True)

/-- Fixture article for concrete witnesses. -/
def mkArticle (t : String) (sec : Option String) (imp brk : ℚ) (isb : Bool) : Article :=
  ⟨t, t, "src", none, sec, some imp, some brk, isb⟩

/-- Fixture configuration for concrete witnesses. -/
def exSettings : Settings :=
  { sections := [("world", ⟨true, some 5⟩), ("business", ⟨true, some 3⟩)],
    newsSources := [("bbc", true)],
    freshnessLimitHours := 24, enableCache := true,
    enableProximityScoring := none, uiMode := "timeline" }

/-- Fixture world article (not breaking). -/
def exW1 : Article := mkArticle "w1" (some "world") 5 0 false

/-- Fixture business-classified article returned by the world fetch. -/
def exBW : Article := mkArticle "bw" (some "business") 9 2 true

/-- Fixture adapter behaviour: a world fetch that also returns a
business-classified article, a business fetch, everything else
non-array. -/
def exFetch : Fetcher := fun key _ _ =>
  if key = "world" then .ok [exW1, exBW]
  else if key = "business" then .ok [mkArticle "b1" (some "business") 7 0 false]
  else .nonArray

/-- Fixture configuration with a configured per-section count of zero. -/
def exSettingsZero : Settings :=
  { sections := [("world", ⟨true, some 0⟩)],
    newsSources := [("bbc", true)],
    freshnessLimitHours := 24, enableCache := true,
    enableProximityScoring := none, uiMode := "timeline" }

/-- Fixture adapter behaviour whose business fetch rejects. -/
def exFetchFail : Fetcher := fun key _ _ =>
  if key = "business" then .fail "boom" else exFetch key 0 []

/-- Fixture initial provider state. -/
def st0 : NewsState := ⟨[], [], [], 0, true⟩

/-- Fixture business article from an earlier cycle. -/
def exBOld : Article := mkArticle "bOld" (some "business") 7 0 false

/-- Fixture provider state carrying a previously published business
bucket and a previously recorded business error entry. -/
def stPrev : NewsState :=
  ⟨[("business", [exBOld])], [], [("business", "old")], 0, false⟩

/-- Fixture adapter behaviour whose world fetch returns only
world-classified articles, so the high-priority wave never touches the
business bucket; business articles arrive only with the low-priority
wave's business fetch. -/
def exFetchW : Fetcher := fun key _ _ =>
  if key = "world" then .ok [exW1]
  else if key = "business" then .ok [mkArticle "b2" (some "business") 6 0 false]
  else .nonArray

namespace StrMap

theorem mem_set {α : Type} {m : StrMap α} {k : String} {v : α} {e : String × α}
    (h : e ∈ m.set k v) : e ∈ m ∨ e = (k, v) := by
  induction m with
  | nil => simpa [StrMap.set] using h
  | cons p m ih =>
    obtain ⟨pk, pv⟩ := p
    by_cases hk : pk = k
    · simp [StrMap.set, hk] at h
      rcases h with h | h
      · right; simp [h]
      · left; exact List.mem_cons_of_mem _ h
    · simp [StrMap.set, hk] at h
      rcases h with h | h
      · left; simp [h]
      · rcases ih h with h | h
        · left; exact List.mem_cons_of_mem _ h
        · right; exact h

theorem mem_merge {α : Type} {m1 m2 : StrMap α} {e : String × α}
    (h : e ∈ m1.merge m2) : e ∈ m1 ∨ e ∈ m2 := by
  induction m2 generalizing m1 with
  | nil => simpa [StrMap.merge] using h
  | cons p m2 ih =>
    simp only [StrMap.merge] at h
    rcases ih h with h | h
    · rcases mem_set h with h | h
      · exact Or.inl h
      · exact Or.inr (by simp [h])
    · exact Or.inr (List.mem_cons_of_mem _ h)

theorem find?_set_ne {α : Type} {m : StrMap α} {k q : String} {v : α}
    (h : k ≠ q) : (m.set k v).find? q = m.find? q := by
  induction m with
  | nil => simp [StrMap.set, StrMap.find?, h]
  | cons p m ih =>
    obtain ⟨pk, pv⟩ := p
    by_cases hk : pk = k
    · subst hk
      simp only [StrMap.set, if_pos rfl, StrMap.find?]
      rw [if_neg h, if_neg h]
    · simp only [StrMap.set, if_neg hk, StrMap.find?]
      by_cases hq : pk = q
      · rw [if_pos hq, if_pos hq]
      · rw [if_neg hq, if_neg hq, ih]

theorem find?_merge_of_not_mem {α : Type} {m1 m2 : StrMap α} {q : String}
    (h : ∀ e ∈ m2, e.1 ≠ q) : (m1.merge m2).find? q = m1.find? q := by
  induction m2 generalizing m1 with
  | nil => simp [StrMap.merge]
  | cons p m2 ih =>
    simp only [StrMap.merge]
    rw [ih (fun e he => h e (List.mem_cons_of_mem _ he))]
    exact find?_set_ne (h p (by simp))

theorem find?_mem {α : Type} {m : StrMap α} {q : String} {v : α}
    (h : m.find? q = some v) : (q, v) ∈ m := by
  induction m with
  | nil => simp [StrMap.find?] at h
  | cons p m ih =>
    obtain ⟨pk, pv⟩ := p
    by_cases hk : pk = q
    · subst hk
      simp [StrMap.find?] at h
      simp [h]
    · simp [StrMap.find?, hk] at h
      exact List.mem_cons_of_mem _ (ih h)

theorem find?_set_self {α : Type} (m : StrMap α) (k : String) (v : α) :
    (m.set k v).find? k = some v := by
  induction m with
  | nil => simp [StrMap.set, StrMap.find?]
  | cons p m ih =>
    obtain ⟨pk, pv⟩ := p
    by_cases hk : pk = k
    · simp [StrMap.set, hk, StrMap.find?]
    · simp [StrMap.set, hk, StrMap.find?, ih]

theorem keys_set_subset {α : Type} {m : StrMap α} {k q : String} {v : α}
    (h : q ∈ (m.set k v).map Prod.fst) : q ∈ m.map Prod.fst ∨ q = k := by
  rcases List.mem_map.mp h with ⟨e, he, hq⟩
  rcases mem_set he with he | he
  · exact Or.inl (hq ▸ List.mem_map_of_mem Prod.fst he)
  · right
    rw [← hq, he]

theorem keys_nodup_set {α : Type} {m : StrMap α} {k : String} {v : α}
    (h : (m.map Prod.fst).Nodup) : ((m.set k v).map Prod.fst).Nodup := by
  induction m with
  | nil => simp [StrMap.set]
  | cons p m ih =>
    obtain ⟨pk, pv⟩ := p
    simp only [List.map_cons, List.nodup_cons] at h
    by_cases hk : pk = k
    · simp only [StrMap.set, if_pos hk, List.map_cons, List.nodup_cons]
      exact ⟨hk ▸ h.1, h.2⟩
    · simp only [StrMap.set, if_neg hk, List.map_cons, List.nodup_cons]
      refine ⟨fun hmem => ?_, ih h.2⟩
      rcases keys_set_subset hmem with hmem | hmem
      · exact h.1 hmem
      · exact hk hmem

theorem keys_nodup_merge {α : Type} {m1 m2 : StrMap α}
    (h : (m1.map Prod.fst).Nodup) : ((m1.merge m2).map Prod.fst).Nodup := by
  induction m2 generalizing m1 with
  | nil => exact h
  | cons p m2 ih => exact ih (keys_nodup_set h)

theorem find?_merge_mem {α : Type} {m1 m2 : StrMap α} {k : String} {v : α}
    (hd : (m2.map Prod.fst).Nodup) (h : m2.find? k = some v) :
    (m1.merge m2).find? k = some v := by
  induction m2 generalizing m1 with
  | nil => simp [StrMap.find?] at h
  | cons p m2 ih =>
    obtain ⟨pk, pv⟩ := p
    simp only [List.map_cons, List.nodup_cons] at hd
    by_cases hk : pk = k
    · subst hk
      simp only [StrMap.find?, if_pos rfl] at h
      simp only [StrMap.merge]
      have hne : ∀ e ∈ m2, e.1 ≠ pk := fun e he hek =>
        hd.1 (hek ▸ List.mem_map_of_mem Prod.fst he)
      rw [find?_merge_of_not_mem hne, find?_set_self]
      simpa using h
    · simp only [StrMap.find?, if_neg hk] at h
      simp only [StrMap.merge]
      exact ih hd.2 h

end StrMap

theorem mem_flattenValues {m : StrMap (List Article)} {a : Article}
    (h : a ∈ flattenValues m) : ∃ e ∈ m, a ∈ e.2 := by
  rcases List.mem_flatten.mp h with ⟨l, hl, ha⟩
  rcases List.mem_map.mp hl with ⟨e, he, hq⟩
  exact ⟨e, he, hq ▸ ha⟩

theorem mem_insertDescBy {key : Article → ℚ} {a x : Article} {l : List Article}
    (h : x ∈ insertDescBy key a l) : x = a ∨ x ∈ l := by
  induction l with
  | nil => simpa [insertDescBy] using h
  | cons b l ih =>
    by_cases hk : key a < key b
    · simp [insertDescBy, hk] at h
      rcases h with h | h
      · exact Or.inr (by simp [h])
      · rcases ih h with h | h
        · exact Or.inl h
        · exact Or.inr (List.mem_cons_of_mem _ h)
    · simp [insertDescBy, hk] at h
      rcases h with h | h | h
      · exact Or.inl h
      · exact Or.inr (by simp [h])
      · exact Or.inr (List.mem_cons_of_mem _ h)

theorem mem_sortDescBy {key : Article → ℚ} {x : Article} {l : List Article}
    (h : x ∈ sortDescBy key l) : x ∈ l := by
  induction l with
  | nil => simp [sortDescBy] at h
  | cons a l ih =>
    rcases @mem_insertDescBy key a x (sortDescBy key l) h with h | h
    · simp [h]
    · exact List.mem_cons_of_mem _ (ih h)

theorem descending_insertDescBy {key : Article → ℚ} {a : Article} {l : List Article}
    (h : DescendingBy key l) : DescendingBy key (insertDescBy key a l) := by
  induction l with
  | nil => simp [insertDescBy, DescendingBy]
  | cons b l ih =>
    by_cases hk : key a < key b
    · have hl : DescendingBy key l := (List.chain'_cons'.mp h).2
      have htail := ih hl
      simp only [insertDescBy, if_pos hk]
      refine List.chain'_cons'.mpr ⟨?_, htail⟩
      intro y hy
      cases l with
      | nil =>
        simp [insertDescBy] at hy
        subst hy
        exact le_of_lt hk
      | cons c l2 =>
        by_cases hk2 : key a < key c
        · simp [insertDescBy, if_pos hk2] at hy
          subst hy
          exact (List.chain'_cons'.mp h).1 c (by simp [sortDescBy])
        · simp [insertDescBy, if_neg hk2] at hy
          subst hy
          exact le_of_lt hk
    · simp only [insertDescBy, if_neg hk]
      refine List.chain'_cons'.mpr ⟨?_, h⟩
      intro y hy
      simp at hy
      subst hy
      exact le_of_not_lt hk

theorem descending_sortDescBy (key : Article → ℚ) (l : List Article) :
    DescendingBy key (sortDescBy key l) := by
  induction l with
  | nil => simp [sortDescBy, DescendingBy]
  | cons a l ih => exact descending_insertDescBy ih

/-- Stability of the sort, in filter form: the articles having any fixed
key value appear in the output in exactly their input order. -/
theorem filter_insertDescBy (key : Article → ℚ) (a : Article) (l : List Article) (c : ℚ) :
    (insertDescBy key a l).filter (fun x => key x = c) =
      if key a = c then a :: l.filter (fun x => key x = c)
      else l.filter (fun x => key x = c) := by
  induction l with
  | nil => by_cases hc : key a = c <;> simp [insertDescBy, hc]
  | cons b l ih =>
    by_cases hk : key a < key b
    · simp only [insertDescBy, if_pos hk]
      by_cases hac : key a = c
      · have hbc : key b ≠ c := by
          intro h2
          rw [hac] at hk
          rw [h2] at hk
          exact lt_irrefl c hk
        simp [List.filter_cons, hac, hbc, ih]
      · simp [List.filter_cons, hac, ih]
    · simp only [insertDescBy, if_neg hk]
      by_cases hac : key a = c <;> simp [List.filter_cons, hac]

theorem filter_sortDescBy (key : Article → ℚ) (l : List Article) (c : ℚ) :
    (sortDescBy key l).filter (fun x => key x = c) = l.filter (fun x => key x = c) := by
  induction l with
  | nil => simp [sortDescBy]
  | cons a l ih =>
    simp only [sortDescBy]
    rw [filter_insertDescBy]
    by_cases hac : key a = c <;> simp [List.filter_cons, hac, ih]

theorem pushAll_classified {m : StrMap (List Article)} {l : List Article}
    (hm : ∀ e ∈ m, ∀ a ∈ e.2, classifySection a = e.1) :
    ∀ e ∈ pushAll m l, ∀ a ∈ e.2, classifySection a = e.1 := by
  induction l generalizing m with
  | nil => simpa [pushAll] using hm
  | cons a rest ih =>
    simp only [pushAll]
    apply ih
    intro e he x hx
    cases hfind : m.find? (classifySection a) with
    | some lb =>
      rw [hfind] at he
      rcases StrMap.mem_set he with he | he
      · exact hm e he x hx
      · subst he
        simp only at hx
        rcases List.mem_append.mp hx with hx | hx
        · exact hm _ (StrMap.find?_mem hfind) x hx
        · simp at hx
          simp [hx]
    | none =>
      rw [hfind] at he
      rcases StrMap.mem_set he with he | he
      · exact hm e he x hx
      · subst he
        simp only at hx
        simp at hx
        simp [hx]

theorem pushAll_keys {m : StrMap (List Article)} {l : List Article} :
    ∀ e ∈ pushAll m l, e.1 ∈ m.map Prod.fst ∨ ∃ a ∈ l, classifySection a = e.1 := by
  induction l generalizing m with
  | nil => intro e he; exact Or.inl (List.mem_map_of_mem Prod.fst (by simpa [pushAll] using he))
  | cons a rest ih =>
    intro e he
    simp only [pushAll] at he
    rcases ih e he with hk | ⟨x, hx, hcl⟩
    · cases hfind : m.find? (classifySection a) with
      | some lb =>
        rw [hfind] at hk
        rcases StrMap.keys_set_subset hk with hk | hk
        · exact Or.inl hk
        · exact Or.inr ⟨a, by simp, hk.symm⟩
      | none =>
        rw [hfind] at hk
        rcases StrMap.keys_set_subset hk with hk | hk
        · exact Or.inl hk
        · exact Or.inr ⟨a, by simp, hk.symm⟩
    · exact Or.inr ⟨x, List.mem_cons_of_mem _ hx, hcl⟩

theorem redistribute_classified (m : StrMap (List Article)) :
    ∀ e ∈ redistribute m, ∀ a ∈ e.2, classifySection a = e.1 := by
  intro e he a ha
  simp only [redistribute] at he
  rcases List.mem_map.mp he with ⟨p, hp, hpe⟩
  subst hpe
  simp only at ha
  have hinit : ∀ e2 ∈ m.map (fun p => (p.1, ([] : List Article))),
      ∀ x ∈ e2.2, classifySection x = e2.1 := by
    intro e2 he2 x hx
    rcases List.mem_map.mp he2 with ⟨q, _, hq⟩
    subst hq
    simp at hx
  exact pushAll_classified hinit p hp a (mem_sortDescBy ha)

theorem redistribute_sorted (m : StrMap (List Article)) :
    ∀ e ∈ redistribute m, DescendingBy impactOf e.2 := by
  intro e he
  simp only [redistribute] at he
  rcases List.mem_map.mp he with ⟨p, _, hpe⟩
  subst hpe
  exact descending_sortDescBy impactOf p.2

theorem fetchCount_append (k : String) (a b : List Event) :
    fetchCount k (a ++ b) = fetchCount k a + fetchCount k b := by
  simp [fetchCount, List.filter_append]

theorem pubCount_append (a b : List Event) :
    pubCount (a ++ b) = pubCount a + pubCount b := by
  simp [pubCount, List.filter_append]

theorem runBatchAux_results_mem {settings : Settings} {fetchFn : Fetcher} :
    ∀ {batch : List String} {results : StrMap (List Article)} {errs : StrMap String}
      {evs : List Event} {e : String × List Article},
      e ∈ (runBatchAux settings fetchFn batch (results, errs, evs)).1 →
      e ∈ results ∨ ∃ cfg, e.1 ∈ batch ∧ settings.sections.find? e.1 = some cfg ∧
        cfg.enabled = true ∧
        e.2 = outcomeList (fetchFn e.1 (jsCount cfg.count + 5) settings.newsSources) := by
  intro batch
  induction batch with
  | nil =>
    intro results errs evs e h
    exact Or.inl (by simpa [runBatchAux] using h)
  | cons key rest ih =>
    intro results errs evs e h
    simp only [runBatchAux] at h
    cases hfind : settings.sections.find? key with
    | none =>
      rw [hfind] at h
      rcases ih h with h | ⟨cfg, hmem, hcfg, hen, hout⟩
      · exact Or.inl h
      · exact Or.inr ⟨cfg, List.mem_cons_of_mem _ hmem, hcfg, hen, hout⟩
    | some cfg =>
      rw [hfind] at h
      dsimp only at h
      by_cases hen : cfg.enabled = true
      · rw [if_pos hen] at h
        cases hf : fetchFn key (jsCount cfg.count + 5) settings.newsSources with
        | ok arts =>
          rw [hf] at h
          rcases ih h with h | ⟨cfg2, hmem, hcfg2, hen2, hout⟩
          · rcases StrMap.mem_set h with h | h
            · exact Or.inl h
            · subst h
              exact Or.inr ⟨cfg, by simp, hfind, hen, by rw [hf]; rfl⟩
          · exact Or.inr ⟨cfg2, List.mem_cons_of_mem _ hmem, hcfg2, hen2, hout⟩
        | nonArray =>
          rw [hf] at h
          rcases ih h with h | ⟨cfg2, hmem, hcfg2, hen2, hout⟩
          · rcases StrMap.mem_set h with h | h
            · exact Or.inl h
            · subst h
              exact Or.inr ⟨cfg, by simp, hfind, hen, by rw [hf]; rfl⟩
          · exact Or.inr ⟨cfg2, List.mem_cons_of_mem _ hmem, hcfg2, hen2, hout⟩
        | fail msg =>
          rw [hf] at h
          rcases ih h with h | ⟨cfg2, hmem, hcfg2, hen2, hout⟩
          · rcases StrMap.mem_set h with h | h
            · exact Or.inl h
            · subst h
              exact Or.inr ⟨cfg, by simp, hfind, hen, by rw [hf]; rfl⟩
          · exact Or.inr ⟨cfg2, List.mem_cons_of_mem _ hmem, hcfg2, hen2, hout⟩
      · rw [if_neg hen] at h
        rcases ih h with h | ⟨cfg2, hmem, hcfg2, hen2, hout⟩
        · exact Or.inl h
        · exact Or.inr ⟨cfg2, List.mem_cons_of_mem _ hmem, hcfg2, hen2, hout⟩

theorem runBatchAux_errors_mem {settings : Settings} {fetchFn : Fetcher} :
    ∀ {batch : List String} {results : StrMap (List Article)} {errs : StrMap String}
      {evs : List Event} {e : String × String},
      e ∈ (runBatchAux settings fetchFn batch (results, errs, evs)).2.1 →
      e ∈ errs ∨ ∃ cfg, e.1 ∈ batch ∧ settings.sections.find? e.1 = some cfg ∧
        cfg.enabled = true ∧
        fetchFn e.1 (jsCount cfg.count + 5) settings.newsSources = .fail e.2 := by
  intro batch
  induction batch with
  | nil =>
    intro results errs evs e h
    exact Or.inl (by simpa [runBatchAux] using h)
  | cons key rest ih =>
    intro results errs evs e h
    simp only [runBatchAux] at h
    cases hfind : settings.sections.find? key with
    | none =>
      rw [hfind] at h
      rcases ih h with h | ⟨cfg, hmem, hcfg, hen, hout⟩
      · exact Or.inl h
      · exact Or.inr ⟨cfg, List.mem_cons_of_mem _ hmem, hcfg, hen, hout⟩
    | some cfg =>
      rw [hfind] at h
      dsimp only at h
      by_cases hen : cfg.enabled = true
      · rw [if_pos hen] at h
        cases hf : fetchFn key (jsCount cfg.count + 5) settings.newsSources with
        | ok arts =>
          rw [hf] at h
          rcases ih h with h | ⟨cfg2, hmem, hcfg2, hen2, hout⟩
          · exact Or.inl h
          · exact Or.inr ⟨cfg2, List.mem_cons_of_mem _ hmem, hcfg2, hen2, hout⟩
        | nonArray =>
          rw [hf] at h
          rcases ih h with h | ⟨cfg2, hmem, hcfg2, hen2, hout⟩
          · exact Or.inl h
          · exact Or.inr ⟨cfg2, List.mem_cons_of_mem _ hmem, hcfg2, hen2, hout⟩
        | fail msg =>
          rw [hf] at h
          rcases ih h with h | ⟨cfg2, hmem, hcfg2, hen2, hout⟩
          · rcases StrMap.mem_set h with h | h
            · exact Or.inl h
            · subst h
              exact Or.inr ⟨cfg, by simp, hfind, hen, by rw [hf]⟩
          · exact Or.inr ⟨cfg2, List.mem_cons_of_mem _ hmem, hcfg2, hen2, hout⟩
      · rw [if_neg hen] at h
        rcases ih h with h | ⟨cfg2, hmem, hcfg2, hen2, hout⟩
        · exact Or.inl h
        · exact Or.inr ⟨cfg2, List.mem_cons_of_mem _ hmem, hcfg2, hen2, hout⟩

theorem runBatchAux_trace {settings : Settings} {fetchFn : Fetcher} :
    ∀ {batch : List String} {results : StrMap (List Article)} {errs : StrMap String}
      {evs : List Event},
      ∃ t, (runBatchAux settings fetchFn batch (results, errs, evs)).2.2 = evs ++ t ∧
        ∀ ev ∈ t, ∃ k cfg, k ∈ batch ∧ settings.sections.find? k = some cfg ∧
          cfg.enabled = true ∧
          ev = .fetch k (jsCount cfg.count + 5) settings.newsSources := by
  intro batch
  induction batch with
  | nil =>
    intro results errs evs
    exact ⟨[], by simp [runBatchAux], by simp⟩
  | cons key rest ih =>
    intro results errs evs
    simp only [runBatchAux]
    cases hfind : settings.sections.find? key with
    | none =>
      rcases @ih results errs evs with ⟨t, ht, hprop⟩
      exact ⟨t, ht, fun ev hev => by
        rcases hprop ev hev with ⟨k, cfg, hk, hcfg, hen, hev2⟩
        exact ⟨k, cfg, List.mem_cons_of_mem _ hk, hcfg, hen, hev2⟩⟩
    | some cfg =>
      dsimp only
      by_cases hen : cfg.enabled = true
      · rw [if_pos hen]
        cases hf : fetchFn key (jsCount cfg.count + 5) settings.newsSources with
        | ok arts =>
          rcases @ih (results.set key arts) errs
            (evs ++ [Event.fetch key (jsCount cfg.count + 5) settings.newsSources]) with
            ⟨t, ht, hprop⟩
          refine ⟨Event.fetch key (jsCount cfg.count + 5) settings.newsSources :: t,
            by rw [ht, List.append_assoc]; rfl, ?_⟩
          intro ev hev
          rcases List.mem_cons.mp hev with hev | hev
          · exact ⟨key, cfg, by simp, hfind, hen, hev⟩
          · rcases hprop ev hev with ⟨k, cfg2, hk, hcfg2, hen2, hev2⟩
            exact ⟨k, cfg2, List.mem_cons_of_mem _ hk, hcfg2, hen2, hev2⟩
        | nonArray =>
          rcases @ih (results.set key []) errs
            (evs ++ [Event.fetch key (jsCount cfg.count + 5) settings.newsSources]) with
            ⟨t, ht, hprop⟩
          refine ⟨Event.fetch key (jsCount cfg.count + 5) settings.newsSources :: t,
            by rw [ht, List.append_assoc]; rfl, ?_⟩
          intro ev hev
          rcases List.mem_cons.mp hev with hev | hev
          · exact ⟨key, cfg, by simp, hfind, hen, hev⟩
          · rcases hprop ev hev with ⟨k, cfg2, hk, hcfg2, hen2, hev2⟩
            exact ⟨k, cfg2, List.mem_cons_of_mem _ hk, hcfg2, hen2, hev2⟩
        | fail msg =>
          rcases @ih (results.set key []) (errs.set key msg)
            (evs ++ [Event.fetch key (jsCount cfg.count + 5) settings.newsSources]) with
            ⟨t, ht, hprop⟩
          refine ⟨Event.fetch key (jsCount cfg.count + 5) settings.newsSources :: t,
            by rw [ht, List.append_assoc]; rfl, ?_⟩
          intro ev hev
          rcases List.mem_cons.mp hev with hev | hev
          · exact ⟨key, cfg, by simp, hfind, hen, hev⟩
          · rcases hprop ev hev with ⟨k, cfg2, hk, hcfg2, hen2, hev2⟩
            exact ⟨k, cfg2, List.mem_cons_of_mem _ hk, hcfg2, hen2, hev2⟩
      · rw [if_neg hen]
        rcases @ih results errs evs with ⟨t, ht, hprop⟩
        exact ⟨t, ht, fun ev hev => by
          rcases hprop ev hev with ⟨k, cfg2, hk, hcfg2, hen2, hev2⟩
          exact ⟨k, cfg2, List.mem_cons_of_mem _ hk, hcfg2, hen2, hev2⟩⟩

theorem fetchCount_fetch_singleton (k s : String) (c : Nat) (srcs : StrMap Bool) :
    fetchCount k [Event.fetch s c srcs] = if s = k then 1 else 0 := by
  by_cases h : s = k <;> simp [fetchCount, h]

theorem occCount_cons (k key : String) (rest : List String) :
    occCount k (key :: rest) = (if key = k then 1 else 0) + occCount k rest := by
  by_cases h : key = k <;> simp [occCount, List.filter_cons, h, Nat.add_comm]

theorem runBatchAux_fetchCount {settings : Settings} {fetchFn : Fetcher} {k : String} :
    ∀ {batch : List String} {results : StrMap (List Article)} {errs : StrMap String}
      {evs : List Event},
      fetchCount k (runBatchAux settings fetchFn batch (results, errs, evs)).2.2 =
        fetchCount k evs +
          (if enabledIn settings k = true then occCount k batch else 0) := by
  intro batch
  induction batch with
  | nil =>
    intro results errs evs
    simp [runBatchAux, occCount]
  | cons key rest ih =>
    intro results errs evs
    simp only [runBatchAux]
    cases hfind : settings.sections.find? key with
    | none =>
      dsimp only
      rw [ih, occCount_cons]
      by_cases hk : key = k
      · subst hk
        have he : enabledIn settings key = false := by simp [enabledIn, hfind]
        simp [he]
      · simp [hk]
    | some cfg =>
      dsimp only
      by_cases hen : cfg.enabled = true
      · rw [if_pos hen]
        cases hf : fetchFn key (jsCount cfg.count + 5) settings.newsSources with
        | ok arts =>
          rw [ih, fetchCount_append, fetchCount_fetch_singleton, occCount_cons]
          by_cases hk : key = k
          · subst hk
            have he : enabledIn settings key = true := by simp [enabledIn, hfind, hen]
            simp only [he, if_pos rfl, if_true]
            omega
          · simp only [if_neg hk]
            by_cases he : enabledIn settings k = true <;> simp [he]
        | nonArray =>
          rw [ih, fetchCount_append, fetchCount_fetch_singleton, occCount_cons]
          by_cases hk : key = k
          · subst hk
            have he : enabledIn settings key = true := by simp [enabledIn, hfind, hen]
            simp only [he, if_pos rfl, if_true]
            omega
          · simp only [if_neg hk]
            by_cases he : enabledIn settings k = true <;> simp [he]
        | fail msg =>
          rw [ih, fetchCount_append, fetchCount_fetch_singleton, occCount_cons]
          by_cases hk : key = k
          · subst hk
            have he : enabledIn settings key = true := by simp [enabledIn, hfind, hen]
            simp only [he, if_pos rfl, if_true]
            omega
          · simp only [if_neg hk]
            by_cases he : enabledIn settings k = true <;> simp [he]
      · rw [if_neg hen]
        rw [ih, occCount_cons]
        by_cases hk : key = k
        · subst hk
          have he : enabledIn settings key = false := by
            simp [enabledIn, hfind]
            simpa using hen
          simp [he]
        · simp [hk]

theorem runBatchAux_trace_mono {settings : Settings} {fetchFn : Fetcher}
    {batch : List String} {results : StrMap (List Article)} {errs : StrMap String}
    {evs : List Event} {ev : Event} (h : ev ∈ evs) :
    ev ∈ (runBatchAux settings fetchFn batch (results, errs, evs)).2.2 := by
  rcases @runBatchAux_trace settings fetchFn batch results errs evs with ⟨t, ht, _⟩
  rw [ht]
  exact List.mem_append_left _ h

theorem runBatchAux_fetched {settings : Settings} {fetchFn : Fetcher} {k : String}
    {cfg : SectionCfg} (hcfg : settings.sections.find? k = some cfg)
    (hen : cfg.enabled = true) :
    ∀ {batch : List String} {results : StrMap (List Article)} {errs : StrMap String}
      {evs : List Event}, k ∈ batch →
      Event.fetch k (jsCount cfg.count + 5) settings.newsSources ∈
        (runBatchAux settings fetchFn batch (results, errs, evs)).2.2 := by
  intro batch
  induction batch with
  | nil => intro results errs evs hk; simp at hk
  | cons key rest ih =>
    intro results errs evs hk
    simp only [runBatchAux]
    by_cases hkey : key = k
    · subst hkey
      rw [hcfg]
      dsimp only
      rw [if_pos hen]
      cases hf : fetchFn key (jsCount cfg.count + 5) settings.newsSources with
      | ok arts => exact runBatchAux_trace_mono (by simp)
      | nonArray => exact runBatchAux_trace_mono (by simp)
      | fail msg => exact runBatchAux_trace_mono (by simp)
    · have hk2 : k ∈ rest := by
        rcases List.mem_cons.mp hk with hk | hk
        · exact absurd hk.symm hkey
        · exact hk
      cases hfind : settings.sections.find? key with
      | none => exact ih hk2
      | some cfg2 =>
        dsimp only
        by_cases hen2 : cfg2.enabled = true
        · rw [if_pos hen2]
          cases hf : fetchFn key (jsCount cfg2.count + 5) settings.newsSources with
          | ok arts => exact ih hk2
          | nonArray => exact ih hk2
          | fail msg => exact ih hk2
        · rw [if_neg hen2]
          exact ih hk2

theorem runBatchAux_fail {settings : Settings} {fetchFn : Fetcher} {k : String}
    {cfg : SectionCfg} {msg : String} (hcfg : settings.sections.find? k = some cfg)
    (hen : cfg.enabled = true)
    (hfail : fetchFn k (jsCount cfg.count + 5) settings.newsSources = .fail msg) :
    ∀ {batch : List String} {results : StrMap (List Article)} {errs : StrMap String}
      {evs : List Event},
      (k ∈ batch ∨ (errs.find? k = some msg ∧ results.find? k = some [])) →
      (runBatchAux settings fetchFn batch (results, errs, evs)).2.1.find? k = some msg ∧
      (runBatchAux settings fetchFn batch (results, errs, evs)).1.find? k = some [] := by
  intro batch
  induction batch with
  | nil =>
    intro results errs evs h
    rcases h with h | h
    · simp at h
    · simpa [runBatchAux] using h
  | cons key rest ih =>
    intro results errs evs h
    simp only [runBatchAux]
    by_cases hkey : key = k
    · subst hkey
      rw [hcfg]
      dsimp only
      rw [if_pos hen, hfail]
      exact ih (Or.inr ⟨StrMap.find?_set_self _ _ _, StrMap.find?_set_self _ _ _⟩)
    · have h2 : k ∈ rest ∨ (errs.find? k = some msg ∧ results.find? k = some []) := by
        rcases h with h | h
        · rcases List.mem_cons.mp h with h | h
          · exact absurd h.symm hkey
          · exact Or.inl h
        · exact Or.inr h
      cases hfind : settings.sections.find? key with
      | none => exact ih h2
      | some cfg2 =>
        dsimp only
        by_cases hen2 : cfg2.enabled = true
        · rw [if_pos hen2]
          cases hf : fetchFn key (jsCount cfg2.count + 5) settings.newsSources with
          | ok arts =>
            refine ih ?_
            rcases h2 with h2 | h2
            · exact Or.inl h2
            · exact Or.inr ⟨h2.1, by rw [StrMap.find?_set_ne hkey]; exact h2.2⟩
          | nonArray =>
            refine ih ?_
            rcases h2 with h2 | h2
            · exact Or.inl h2
            · exact Or.inr ⟨h2.1, by rw [StrMap.find?_set_ne hkey]; exact h2.2⟩
          | fail msg2 =>
            refine ih ?_
            rcases h2 with h2 | h2
            · exact Or.inl h2
            · exact Or.inr ⟨by rw [StrMap.find?_set_ne hkey]; exact h2.1,
                by rw [StrMap.find?_set_ne hkey]; exact h2.2⟩
        · rw [if_neg hen2]
          exact ih h2

theorem runBatchAux_nodup {settings : Settings} {fetchFn : Fetcher} :
    ∀ {batch : List String} {results : StrMap (List Article)} {errs : StrMap String}
      {evs : List Event},
      (results.map Prod.fst).Nodup → (errs.map Prod.fst).Nodup →
      (((runBatchAux settings fetchFn batch (results, errs, evs)).1.map Prod.fst).Nodup ∧
       (((runBatchAux settings fetchFn batch (results, errs, evs)).2.1.map Prod.fst).Nodup)) := by
  intro batch
  induction batch with
  | nil =>
    intro results errs evs h1 h2
    exact ⟨by simpa [runBatchAux] using h1, by simpa [runBatchAux] using h2⟩
  | cons key rest ih =>
    intro results errs evs h1 h2
    simp only [runBatchAux]
    cases hfind : settings.sections.find? key with
    | none => exact ih h1 h2
    | some cfg =>
      dsimp only
      by_cases hen : cfg.enabled = true
      · rw [if_pos hen]
        cases hf : fetchFn key (jsCount cfg.count + 5) settings.newsSources with
        | ok arts => exact ih (StrMap.keys_nodup_set h1) h2
        | nonArray => exact ih (StrMap.keys_nodup_set h1) h2
        | fail msg => exact ih (StrMap.keys_nodup_set h1) (StrMap.keys_nodup_set h2)
      · rw [if_neg hen]
        exact ih h1 h2

theorem redistribute_keys {m : StrMap (List Article)} :
    ∀ e ∈ redistribute m,
      e.1 ∈ m.map Prod.fst ∨ ∃ a ∈ flattenValues m, classifySection a = e.1 := by
  intro e he
  simp only [redistribute] at he
  rcases List.mem_map.mp he with ⟨p, hp, hpe⟩
  rcases pushAll_keys p hp with hk | hk
  · left
    rcases List.mem_map.mp hk with ⟨q, hq, hqk⟩
    rcases List.mem_map.mp hq with ⟨r, hr, hrq⟩
    subst hpe
    have hpr : p.1 = r.1 := by rw [← hqk, ← hrq]
    simpa [hpr] using List.mem_map_of_mem Prod.fst hr
  · right
    subst hpe
    exact hk

theorem fetchCount_publish_singleton (k : String) (acc nd : StrMap (List Article))
    (bk : List Article) (er : StrMap String) :
    fetchCount k [Event.publish acc nd bk er] = 0 := by
  simp [fetchCount]

theorem pubCount_publish_singleton (acc nd : StrMap (List Article))
    (bk : List Article) (er : StrMap String) :
    pubCount [Event.publish acc nd bk er] = 1 := by
  simp [pubCount]

theorem pubCount_fetch_only :
    ∀ {evs : List Event}, (∀ ev ∈ evs, ∃ k c srcs, ev = Event.fetch k c srcs) →
      pubCount evs = 0 := by
  intro evs
  induction evs with
  | nil => intro _; rfl
  | cons e rest ih =>
    intro h
    rcases h e (by simp) with ⟨k, c, srcs, he⟩
    subst he
    simp only [pubCount, List.filter_cons]
    exact ih fun ev hev => h ev (List.mem_cons_of_mem _ hev)

theorem processBatches_trace_ext {settings : Settings} {fetchFn : Fetcher} :
    ∀ {batches : List (List String)} {coll : StrMap (List Article)} {st : NewsState}
      {tr : List Event},
      ∃ t, (processBatches settings fetchFn batches coll st tr).2 = tr ++ t := by
  intro batches
  induction batches with
  | nil => intro coll st tr; exact ⟨[], by simp [processBatches]⟩
  | cons batch rest ih =>
    intro coll st tr
    simp only [processBatches]
    rcases @ih (coll.merge (runBatchAux settings fetchFn batch ([], [], [])).1) _ _ with ⟨t, ht⟩
    refine ⟨(runBatchAux settings fetchFn batch ([], [], [])).2.2 ++
      [Event.publish (coll.merge (runBatchAux settings fetchFn batch ([], [], [])).1)
        (st.newsData.merge (redistribute (coll.merge (runBatchAux settings fetchFn batch ([], [], [])).1)))
        (computeBreaking (flattenValues (coll.merge (runBatchAux settings fetchFn batch ([], [], [])).1)))
        (st.errors.merge (runBatchAux settings fetchFn batch ([], [], [])).2.1)] ++ t, ?_⟩
    rw [ht]
    simp [List.append_assoc]

theorem processBatches_classified {settings : Settings} {fetchFn : Fetcher} :
    ∀ {batches : List (List String)} {coll : StrMap (List Article)} {st : NewsState}
      {tr : List Event},
      ClassifiedMap st.newsData → (∀ ev ∈ tr, PubClassified ev) →
      ClassifiedMap (processBatches settings fetchFn batches coll st tr).1.newsData ∧
      ∀ ev ∈ (processBatches settings fetchFn batches coll st tr).2, PubClassified ev := by
  intro batches
  induction batches with
  | nil =>
    intro coll st tr hst htr
    exact ⟨hst, htr⟩
  | cons batch rest ih =>
    intro coll st tr hst htr
    simp only [processBatches]
    have hnd2 : ClassifiedMap (st.newsData.merge
        (redistribute (coll.merge (runBatchAux settings fetchFn batch ([], [], [])).1))) := by
      intro e he a ha
      rcases StrMap.mem_merge he with he | he
      · exact hst e he a ha
      · exact redistribute_classified _ e he a ha
    refine ih hnd2 ?_
    intro ev hev
    rcases List.mem_append.mp hev with hev | hev
    · rcases List.mem_append.mp hev with hev | hev
      · exact htr ev hev
      · rcases @runBatchAux_trace settings fetchFn batch ([] : StrMap (List Article))
          ([] : StrMap String) ([] : List Event) with ⟨t, ht, hprop⟩
        rw [ht] at hev
        simp only [List.nil_append] at hev
        rcases hprop ev hev with ⟨k2, cfg2, _, _, _, hev2⟩
        intro acc nd bk er heq
        rw [hev2] at heq
        simp at heq
    · simp only [List.mem_singleton] at hev
      subst hev
      intro acc nd bk er heq
      injection heq with h1 h2 h3 h4
      rw [← h2]
      exact hnd2

theorem processBatches_sorted {settings : Settings} {fetchFn : Fetcher} :
    ∀ {batches : List (List String)} {coll : StrMap (List Article)} {st : NewsState}
      {tr : List Event},
      SortedMap st.newsData → (∀ ev ∈ tr, PubSorted ev) →
      SortedMap (processBatches settings fetchFn batches coll st tr).1.newsData ∧
      ∀ ev ∈ (processBatches settings fetchFn batches coll st tr).2, PubSorted ev := by
  intro batches
  induction batches with
  | nil =>
    intro coll st tr hst htr
    exact ⟨hst, htr⟩
  | cons batch rest ih =>
    intro coll st tr hst htr
    simp only [processBatches]
    have hnd2 : SortedMap (st.newsData.merge
        (redistribute (coll.merge (runBatchAux settings fetchFn batch ([], [], [])).1))) := by
      intro e he
      rcases StrMap.mem_merge he with he | he
      · exact hst e he
      · exact redistribute_sorted _ e he
    refine ih hnd2 ?_
    intro ev hev
    rcases List.mem_append.mp hev with hev | hev
    · rcases List.mem_append.mp hev with hev | hev
      · exact htr ev hev
      · rcases @runBatchAux_trace settings fetchFn batch ([] : StrMap (List Article))
          ([] : StrMap String) ([] : List Event) with ⟨t, ht, hprop⟩
        rw [ht] at hev
        simp only [List.nil_append] at hev
        rcases hprop ev hev with ⟨k2, cfg2, _, _, _, hev2⟩
        intro acc nd bk er heq
        rw [hev2] at heq
        simp at heq
    · simp only [List.mem_singleton] at hev
      subst hev
      intro acc nd bk er heq
      injection heq with h1 h2 h3 h4
      rw [← h2]
      exact hnd2

theorem processBatches_breaking {settings : Settings} {fetchFn : Fetcher} :
    ∀ {batches : List (List String)} {coll : StrMap (List Article)} {st : NewsState}
      {tr : List Event},
      (∀ ev ∈ tr, PubBreaking ev) →
      ∀ ev ∈ (processBatches settings fetchFn batches coll st tr).2, PubBreaking ev := by
  intro batches
  induction batches with
  | nil =>
    intro coll st tr htr
    exact htr
  | cons batch rest ih =>
    intro coll st tr htr
    simp only [processBatches]
    refine ih ?_
    intro ev hev
    rcases List.mem_append.mp hev with hev | hev
    · rcases List.mem_append.mp hev with hev | hev
      · exact htr ev hev
      · rcases @runBatchAux_trace settings fetchFn batch ([] : StrMap (List Article))
          ([] : StrMap String) ([] : List Event) with ⟨t, ht, hprop⟩
        rw [ht] at hev
        simp only [List.nil_append] at hev
        rcases hprop ev hev with ⟨k2, cfg2, _, _, _, hev2⟩
        intro acc nd bk er heq
        rw [hev2] at heq
        simp at heq
    · simp only [List.mem_singleton] at hev
      subst hev
      intro acc nd bk er heq
      injection heq with h1 h2 h3 h4
      rw [← h1, ← h3]

theorem processBatches_fetchShape {settings : Settings} {fetchFn : Fetcher} :
    ∀ {batches : List (List String)} {coll : StrMap (List Article)} {st : NewsState}
      {tr : List Event},
      (∀ ev ∈ tr, FetchShape settings ev) →
      ∀ ev ∈ (processBatches settings fetchFn batches coll st tr).2,
        FetchShape settings ev := by
  intro batches
  induction batches with
  | nil =>
    intro coll st tr htr
    exact htr
  | cons batch rest ih =>
    intro coll st tr htr
    simp only [processBatches]
    refine ih ?_
    intro ev hev
    rcases List.mem_append.mp hev with hev | hev
    · rcases List.mem_append.mp hev with hev | hev
      · exact htr ev hev
      · rcases @runBatchAux_trace settings fetchFn batch ([] : StrMap (List Article))
          ([] : StrMap String) ([] : List Event) with ⟨t, ht, hprop⟩
        rw [ht] at hev
        simp only [List.nil_append] at hev
        rcases hprop ev hev with ⟨k2, cfg2, _, hcfg2, hen2, hev2⟩
        intro k c srcs heq
        rw [hev2] at heq
        injection heq with e1 e2 e3
        subst e1
        subst e2
        subst e3
        exact ⟨rfl, cfg2, hcfg2, hen2, rfl⟩
    · simp only [List.mem_singleton] at hev
      subst hev
      intro k c srcs heq
      simp at heq

theorem processBatches_fetchCount {settings : Settings} {fetchFn : Fetcher} {k : String} :
    ∀ {batches : List (List String)} {coll : StrMap (List Article)} {st : NewsState}
      {tr : List Event},
      fetchCount k (processBatches settings fetchFn batches coll st tr).2 =
        fetchCount k tr +
          (if enabledIn settings k = true then (batches.map (occCount k)).sum else 0) := by
  intro batches
  induction batches with
  | nil =>
    intro coll st tr
    simp [processBatches]
  | cons batch rest ih =>
    intro coll st tr
    simp only [processBatches]
    rw [ih, fetchCount_append, fetchCount_append, fetchCount_publish_singleton]
    have hb : fetchCount k (runBatchAux settings fetchFn batch ([], [], [])).2.2 =
        (if enabledIn settings k = true then occCount k batch else 0) := by
      rw [runBatchAux_fetchCount]
      simp [fetchCount]
    rw [hb]
    simp only [List.map_cons, List.sum_cons]
    by_cases he : enabledIn settings k = true <;> simp [he]
    omega

theorem processBatches_pubCount {settings : Settings} {fetchFn : Fetcher} :
    ∀ {batches : List (List String)} {coll : StrMap (List Article)} {st : NewsState}
      {tr : List Event},
      pubCount (processBatches settings fetchFn batches coll st tr).2 =
        pubCount tr + batches.length := by
  intro batches
  induction batches with
  | nil =>
    intro coll st tr
    simp [processBatches]
  | cons batch rest ih =>
    intro coll st tr
    simp only [processBatches]
    rw [ih, pubCount_append, pubCount_append, pubCount_publish_singleton]
    have hb : pubCount (runBatchAux settings fetchFn batch ([], [], [])).2.2 = 0 := by
      rcases @runBatchAux_trace settings fetchFn batch ([] : StrMap (List Article))
        ([] : StrMap String) ([] : List Event) with ⟨t, ht, hprop⟩
      rw [ht]
      simp only [List.nil_append]
      refine pubCount_fetch_only ?_
      intro ev hev
      rcases hprop ev hev with ⟨k2, cfg2, _, _, _, hev2⟩
      exact ⟨k2, jsCount cfg2.count + 5, settings.newsSources, hev2⟩
    rw [hb]
    simp [List.length_cons]
    omega

theorem processBatches_sections {settings : Settings} {fetchFn : Fetcher} :
    ∀ {batches : List (List String)} {coll : StrMap (List Article)} {st : NewsState}
      {tr : List Event},
      ∃ t, (processBatches settings fetchFn batches coll st tr).2 = tr ++ t ∧
        ∀ ev ∈ t, ∀ k c srcs, ev = Event.fetch k c srcs → ∃ b ∈ batches, k ∈ b := by
  intro batches
  induction batches with
  | nil =>
    intro coll st tr
    exact ⟨[], by simp [processBatches], by simp⟩
  | cons batch rest ih =>
    intro coll st tr
    simp only [processBatches]
    rcases @ih (coll.merge (runBatchAux settings fetchFn batch ([], [], [])).1) _ _ with
      ⟨t2, ht2, hprop2⟩
    rcases @runBatchAux_trace settings fetchFn batch ([] : StrMap (List Article))
      ([] : StrMap String) ([] : List Event) with ⟨t1, ht1, hprop1⟩
    refine ⟨(runBatchAux settings fetchFn batch ([], [], [])).2.2 ++
      [Event.publish (coll.merge (runBatchAux settings fetchFn batch ([], [], [])).1)
        (st.newsData.merge (redistribute (coll.merge (runBatchAux settings fetchFn batch ([], [], [])).1)))
        (computeBreaking (flattenValues (coll.merge (runBatchAux settings fetchFn batch ([], [], [])).1)))
        (st.errors.merge (runBatchAux settings fetchFn batch ([], [], [])).2.1)] ++ t2, ?_, ?_⟩
    · rw [ht2]
      simp [List.append_assoc]
    · intro ev hev k c srcs heq
      rcases List.mem_append.mp hev with hev | hev
      · rcases List.mem_append.mp hev with hev | hev
        · rw [ht1] at hev
          simp only [List.nil_append] at hev
          rcases hprop1 ev hev with ⟨k2, cfg2, hk2, _, _, hev2⟩
          rw [hev2] at heq
          injection heq with e1 e2 e3
          subst e1
          exact ⟨batch, by simp, hk2⟩
        · simp only [List.mem_singleton] at hev
          subst hev
          simp at heq
      · rcases hprop2 ev hev k c srcs heq with ⟨b, hb, hkb⟩
        exact ⟨b, List.mem_cons_of_mem _ hb, hkb⟩

theorem processBatches_frame {settings : Settings} {fetchFn : Fetcher} {k : String} :
    ∀ {batches : List (List String)} {coll : StrMap (List Article)} {st : NewsState}
      {tr : List Event} {v : Option (List Article)} {w : Option String},
      (∀ b ∈ batches, ∀ s ∈ b, ∀ cfg, settings.sections.find? s = some cfg →
        cfg.enabled = true → s ≠ k ∧
        ∀ a ∈ outcomeList (fetchFn s (jsCount cfg.count + 5) settings.newsSources),
          classifySection a ≠ k) →
      AvoidsKey k coll →
      st.newsData.find? k = v → st.errors.find? k = w →
      (∀ ev ∈ tr, ∀ acc nd bk er, ev = Event.publish acc nd bk er →
        nd.find? k = v ∧ er.find? k = w) →
      (processBatches settings fetchFn batches coll st tr).1.newsData.find? k = v ∧
      (processBatches settings fetchFn batches coll st tr).1.errors.find? k = w ∧
      ∀ ev ∈ (processBatches settings fetchFn batches coll st tr).2,
        ∀ acc nd bk er, ev = Event.publish acc nd bk er →
          nd.find? k = v ∧ er.find? k = w := by
  intro batches
  induction batches with
  | nil =>
    intro coll st tr v w _ _ hv hw htr
    exact ⟨hv, hw, htr⟩
  | cons batch rest ih =>
    intro coll st tr v w hb hcoll hv hw htr
    simp only [processBatches]
    have hres : AvoidsKey k (runBatchAux settings fetchFn batch ([], [], [])).1 := by
      intro e he
      rcases runBatchAux_results_mem he with he | ⟨cfg, hmem, hcfg, hen, hout⟩
      · simp at he
      · rcases hb batch (by simp) e.1 hmem cfg hcfg hen with ⟨hne, hcl⟩
        exact ⟨hne, fun a ha => hcl a (hout ▸ ha)⟩
    have hcoll2 : AvoidsKey k (coll.merge (runBatchAux settings fetchFn batch ([], [], [])).1) := by
      intro e he
      rcases StrMap.mem_merge he with he | he
      · exact hcoll e he
      · exact hres e he
    have hred : ∀ e ∈ redistribute (coll.merge (runBatchAux settings fetchFn batch ([], [], [])).1),
        e.1 ≠ k := by
      intro e he
      rcases redistribute_keys e he with hkey | ⟨a, ha, hcl⟩
      · rcases List.mem_map.mp hkey with ⟨e2, he2, he2k⟩
        exact he2k ▸ (hcoll2 e2 he2).1
      · rcases mem_flattenValues ha with ⟨e2, he2, ha2⟩
        exact hcl ▸ (hcoll2 e2 he2).2 a ha2
    have hnd2 : (st.newsData.merge
        (redistribute (coll.merge (runBatchAux settings fetchFn batch ([], [], [])).1))).find? k = v := by
      rw [StrMap.find?_merge_of_not_mem hred, hv]
    have herrent : ∀ e ∈ (runBatchAux settings fetchFn batch ([], [], [])).2.1, e.1 ≠ k := by
      intro e he
      rcases runBatchAux_errors_mem he with he | ⟨cfg, hmem, hcfg, hen, _⟩
      · simp at he
      · exact (hb batch (by simp) e.1 hmem cfg hcfg hen).1
    have herr2 : (st.errors.merge (runBatchAux settings fetchFn batch ([], [], [])).2.1).find? k = w := by
      rw [StrMap.find?_merge_of_not_mem herrent, hw]
    refine ih (fun b hb2 => hb b (List.mem_cons_of_mem _ hb2)) hcoll2 hnd2 herr2 ?_
    intro ev hev acc nd bk er heq
    rcases List.mem_append.mp hev with hev | hev
    · rcases List.mem_append.mp hev with hev | hev
      · exact htr ev hev acc nd bk er heq
      · rcases @runBatchAux_trace settings fetchFn batch ([] : StrMap (List Article))
          ([] : StrMap String) ([] : List Event) with ⟨t, ht, hprop⟩
        rw [ht] at hev
        simp only [List.nil_append] at hev
        rcases hprop ev hev with ⟨k2, cfg2, _, _, _, hev2⟩
        rw [hev2] at heq
        simp at heq
    · simp only [List.mem_singleton] at hev
      subst hev
      injection heq with h1 h2 h3 h4
      rw [← h2, ← h4]
      exact ⟨hnd2, herr2⟩

theorem batch_step_frame {settings : Settings} {fetchFn : Fetcher} {k : String}
    {v : Option (List Article)} {w : Option String} {batch : List String}
    {coll : StrMap (List Article)} {st : NewsState}
    (hcoll : AvoidsKey k coll) (hv : st.newsData.find? k = v)
    (hw : st.errors.find? k = w)
    (hbav : ∀ ev ∈ (runBatchAux settings fetchFn batch ([], [], [])).2.2,
      FetchAvoids fetchFn k ev) :
    AvoidsKey k (coll.merge (runBatchAux settings fetchFn batch ([], [], [])).1) ∧
    (st.newsData.merge (redistribute
      (coll.merge (runBatchAux settings fetchFn batch ([], [], [])).1))).find? k = v ∧
    (st.errors.merge (runBatchAux settings fetchFn batch ([], [], [])).2.1).find? k = w := by
  have hres : AvoidsKey k (runBatchAux settings fetchFn batch ([], [], [])).1 := by
    intro e he
    rcases runBatchAux_results_mem he with he | ⟨cfg, hmem, hcfg, hen, hout⟩
    · simp at he
    · have hevmem : Event.fetch e.1 (jsCount cfg.count + 5) settings.newsSources ∈
          (runBatchAux settings fetchFn batch ([], [], [])).2.2 :=
        runBatchAux_fetched hcfg hen hmem
      have hfa := hbav _ hevmem
      simp only [FetchAvoids] at hfa
      exact ⟨hfa.1, fun a ha => hfa.2 a (hout ▸ ha)⟩
  have herrent : ∀ e ∈ (runBatchAux settings fetchFn batch ([], [], [])).2.1, e.1 ≠ k := by
    intro e he
    rcases runBatchAux_errors_mem he with he | ⟨cfg, hmem, hcfg, hen, _⟩
    · simp at he
    · have hevmem : Event.fetch e.1 (jsCount cfg.count + 5) settings.newsSources ∈
          (runBatchAux settings fetchFn batch ([], [], [])).2.2 :=
        runBatchAux_fetched hcfg hen hmem
      have hfa := hbav _ hevmem
      simp only [FetchAvoids] at hfa
      exact hfa.1
  have hcoll2 : AvoidsKey k (coll.merge (runBatchAux settings fetchFn batch ([], [], [])).1) := by
    intro e he
    rcases StrMap.mem_merge he with he | he
    · exact hcoll e he
    · exact hres e he
  have hred : ∀ e ∈ redistribute (coll.merge (runBatchAux settings fetchFn batch ([], [], [])).1),
      e.1 ≠ k := by
    intro e he
    rcases redistribute_keys e he with hkey | ⟨a, ha, hcl⟩
    · rcases List.mem_map.mp hkey with ⟨e2, he2, he2k⟩
      exact he2k ▸ (hcoll2 e2 he2).1
    · rcases mem_flattenValues ha with ⟨e2, he2, ha2⟩
      exact hcl ▸ (hcoll2 e2 he2).2 a ha2
  refine ⟨hcoll2, ?_, ?_⟩
  · rw [StrMap.find?_merge_of_not_mem hred]
    exact hv
  · rw [StrMap.find?_merge_of_not_mem herrent]
    exact hw

theorem processBatches_frame_publish {settings : Settings} {fetchFn : Fetcher} {k : String}
    {v : Option (List Article)} {w : Option String} :
    ∀ {batches : List (List String)} {coll : StrMap (List Article)} {st : NewsState}
      {tr : List Event},
      (∀ t rest acc nd bk er, tr = t ++ Event.publish acc nd bk er :: rest →
        (∀ ev ∈ t, FetchAvoids fetchFn k ev) → nd.find? k = v ∧ er.find? k = w) →
      ((∀ ev ∈ tr, FetchAvoids fetchFn k ev) →
        AvoidsKey k coll ∧ st.newsData.find? k = v ∧ st.errors.find? k = w) →
      ∀ t rest acc nd bk er,
        (processBatches settings fetchFn batches coll st tr).2 =
          t ++ Event.publish acc nd bk er :: rest →
        (∀ ev ∈ t, FetchAvoids fetchFn k ev) →
        nd.find? k = v ∧ er.find? k = w := by
  intro batches
  induction batches with
  | nil =>
    intro coll st tr htr hstate t rest acc nd bk er heq havoid
    exact htr t rest acc nd bk er heq havoid
  | cons batch restB ih =>
    intro coll st tr htr hstate t rest acc nd bk er heq havoid
    rcases @runBatchAux_trace settings fetchFn batch ([] : StrMap (List Article))
      ([] : StrMap String) ([] : List Event) with ⟨u, hu, hpropu⟩
    simp only [List.nil_append] at hu
    simp only [processBatches] at heq
    refine ih ?_ ?_ t rest acc nd bk er heq havoid
    · intro t2 rest2 acc2 nd2 bk2 er2 heq2 hav2
      rw [List.append_assoc] at heq2
      rcases List.append_eq_append_iff.mp heq2 with ⟨a2, ha1, ha2⟩ | ⟨c2, hc1, hc2⟩
      · rcases List.append_eq_append_iff.mp ha2 with ⟨b2, hb1, hb2⟩ | ⟨e2, he1, he2⟩
        · cases b2 with
          | nil =>
            simp only [List.nil_append] at hb2
            injection hb2 with h1 h2
            injection h1 with g1 g2 g3 g4
            simp only [List.append_nil] at hb1
            have ht1 : ∀ ev ∈ tr, FetchAvoids fetchFn k ev := by
              intro ev hev
              refine hav2 ev ?_
              rw [ha1]
              exact List.mem_append_left _ hev
            have hb1' : ∀ ev ∈ (runBatchAux settings fetchFn batch ([], [], [])).2.2,
                FetchAvoids fetchFn k ev := by
              intro ev hev
              refine hav2 ev ?_
              rw [ha1, hb1]
              exact List.mem_append_right _ hev
            rcases hstate ht1 with ⟨hcoll, hv, hw⟩
            have hstep := batch_step_frame hcoll hv hw hb1'
            constructor
            · rw [← g2]
              exact hstep.2.1
            · rw [← g4]
              exact hstep.2.2
          | cons x b3 =>
            simp only [List.cons_append] at hb2
            injection hb2 with h1 h2
            simp at h2
        · cases e2 with
          | nil =>
            simp only [List.nil_append] at he2
            injection he2 with h1 h2
            injection h1 with g1 g2 g3 g4
            simp only [List.append_nil] at he1
            have ht1 : ∀ ev ∈ tr, FetchAvoids fetchFn k ev := by
              intro ev hev
              refine hav2 ev ?_
              rw [ha1]
              exact List.mem_append_left _ hev
            have hb1' : ∀ ev ∈ (runBatchAux settings fetchFn batch ([], [], [])).2.2,
                FetchAvoids fetchFn k ev := by
              intro ev hev
              refine hav2 ev ?_
              rw [ha1]
              rw [he1] at hev
              exact List.mem_append_right _ hev
            rcases hstate ht1 with ⟨hcoll, hv, hw⟩
            have hstep := batch_step_frame hcoll hv hw hb1'
            constructor
            · rw [g2]
              exact hstep.2.1
            · rw [g4]
              exact hstep.2.2
          | cons y e3 =>
            simp only [List.cons_append] at he2
            injection he2 with h1 h2
            have hymem : y ∈ (runBatchAux settings fetchFn batch ([], [], [])).2.2 := by
              rw [he1]
              exact List.mem_append_right _ (by simp)
            rw [hu] at hymem
            rcases hpropu y hymem with ⟨k2, cfg2, _, _, _, hyev⟩
            rw [hyev] at h1
            simp at h1
      · cases c2 with
        | nil =>
          simp only [List.append_nil] at hc1
          simp only [List.nil_append] at hc2
          rw [hu] at hc2
          rcases u with _ | ⟨y, u3⟩
          · simp only [List.nil_append] at hc2
            injection hc2 with h1 h2
            injection h1 with g1 g2 g3 g4
            have ht1 : ∀ ev ∈ tr, FetchAvoids fetchFn k ev := by
              intro ev hev
              rw [hc1] at hev
              exact hav2 ev hev
            have hb1' : ∀ ev ∈ (runBatchAux settings fetchFn batch ([], [], [])).2.2,
                FetchAvoids fetchFn k ev := by
              intro ev hev
              rw [hu] at hev
              simp at hev
            rcases hstate ht1 with ⟨hcoll, hv, hw⟩
            have hstep := batch_step_frame hcoll hv hw hb1'
            constructor
            · rw [g2]
              exact hstep.2.1
            · rw [g4]
              exact hstep.2.2
          · simp only [List.cons_append] at hc2
            injection hc2 with h1 h2
            rcases hpropu y (by simp) with ⟨k2, cfg2, _, _, _, hyev⟩
            rw [hyev] at h1
            simp at h1
        | cons z c3 =>
          simp only [List.cons_append] at hc2
          injection hc2 with h1 h2
          refine htr t2 c3 acc2 nd2 bk2 er2 ?_ hav2
          rw [hc1, h1]
    · intro hall
      have ht1 : ∀ ev ∈ tr, FetchAvoids fetchFn k ev := fun ev hev =>
        hall ev (List.mem_append_left _ (List.mem_append_left _ hev))
      have hb1' : ∀ ev ∈ (runBatchAux settings fetchFn batch ([], [], [])).2.2,
          FetchAvoids fetchFn k ev := fun ev hev =>
        hall ev (List.mem_append_left _ (List.mem_append_right _ hev))
      rcases hstate ht1 with ⟨hcoll, hv, hw⟩
      exact batch_step_frame hcoll hv hw hb1'

theorem processBatches_frame_final {settings : Settings} {fetchFn : Fetcher} {k : String}
    {v : Option (List Article)} {w : Option String} :
    ∀ {batches : List (List String)} {coll : StrMap (List Article)} {st : NewsState}
      {tr : List Event},
      ((∀ ev ∈ tr, FetchAvoids fetchFn k ev) →
        AvoidsKey k coll ∧ st.newsData.find? k = v ∧ st.errors.find? k = w) →
      (∀ ev ∈ (processBatches settings fetchFn batches coll st tr).2,
        FetchAvoids fetchFn k ev) →
      (processBatches settings fetchFn batches coll st tr).1.newsData.find? k = v ∧
      (processBatches settings fetchFn batches coll st tr).1.errors.find? k = w := by
  intro batches
  induction batches with
  | nil =>
    intro coll st tr hstate hall
    exact ⟨(hstate hall).2.1, (hstate hall).2.2⟩
  | cons batch restB ih =>
    intro coll st tr hstate hall
    simp only [processBatches] at hall ⊢
    refine ih ?_ hall
    intro hall2
    have ht1 : ∀ ev ∈ tr, FetchAvoids fetchFn k ev := fun ev hev =>
      hall2 ev (List.mem_append_left _ (List.mem_append_left _ hev))
    have hb1' : ∀ ev ∈ (runBatchAux settings fetchFn batch ([], [], [])).2.2,
        FetchAvoids fetchFn k ev := fun ev hev =>
      hall2 ev (List.mem_append_left _ (List.mem_append_right _ hev))
    rcases hstate ht1 with ⟨hcoll, hv, hw⟩
    exact batch_step_frame hcoll hv hw hb1'

theorem processBatches_errors_pres {settings : Settings} {fetchFn : Fetcher} {k : String} :
    ∀ {batches : List (List String)} {coll : StrMap (List Article)} {st : NewsState}
      {tr : List Event},
      (∀ b ∈ batches, k ∉ b) →
      (processBatches settings fetchFn batches coll st tr).1.errors.find? k =
        st.errors.find? k := by
  intro batches
  induction batches with
  | nil => intro coll st tr _; rfl
  | cons batch rest ih =>
    intro coll st tr hb
    simp only [processBatches]
    rw [ih (fun b hb2 => hb b (List.mem_cons_of_mem _ hb2))]
    refine StrMap.find?_merge_of_not_mem ?_
    intro e he
    rcases runBatchAux_errors_mem he with he | ⟨cfg, hmem, _, _, _⟩
    · simp at he
    · intro hek
      exact hb batch (by simp) (hek ▸ hmem)

theorem processBatches_fail {settings : Settings} {fetchFn : Fetcher} {k : String}
    {cfg : SectionCfg} {msg : String} (hcfg : settings.sections.find? k = some cfg)
    (hen : cfg.enabled = true)
    (hfail : fetchFn k (jsCount cfg.count + 5) settings.newsSources = .fail msg) :
    ∀ (pre : List (List String)) {b : List String} {post : List (List String)}
      {coll : StrMap (List Article)} {st : NewsState} {tr : List Event},
      k ∈ b → (∀ b2 ∈ post, k ∉ b2) →
      (processBatches settings fetchFn (pre ++ b :: post) coll st tr).1.errors.find? k =
        some msg ∧
      ∃ ev ∈ (processBatches settings fetchFn (pre ++ b :: post) coll st tr).2,
        ∃ acc nd bk er, ev = Event.publish acc nd bk er ∧
          acc.find? k = some ([] : List Article) ∧ er.find? k = some msg := by
  intro pre
  induction pre with
  | nil =>
    intro b post coll st tr hkb hpost
    simp only [List.nil_append]
    simp only [processBatches]
    have hnodup := @runBatchAux_nodup settings fetchFn b
      ([] : StrMap (List Article)) ([] : StrMap String) ([] : List Event)
      (by simp) (by simp)
    have hrb := @runBatchAux_fail settings fetchFn k cfg msg hcfg hen hfail b
      ([] : StrMap (List Article)) ([] : StrMap String) ([] : List Event)
      (Or.inl hkb)
    have hcoll2 : (coll.merge (runBatchAux settings fetchFn b ([], [], [])).1).find? k =
        some ([] : List Article) :=
      StrMap.find?_merge_mem hnodup.1 hrb.2
    have herr2 : (st.errors.merge (runBatchAux settings fetchFn b ([], [], [])).2.1).find? k =
        some msg :=
      StrMap.find?_merge_mem hnodup.2 hrb.1
    constructor
    · rw [processBatches_errors_pres hpost]
      exact herr2
    · rcases @processBatches_trace_ext settings fetchFn post
        (coll.merge (runBatchAux settings fetchFn b ([], [], [])).1) _ _ with ⟨t, ht⟩
      refine ⟨Event.publish (coll.merge (runBatchAux settings fetchFn b ([], [], [])).1)
        (st.newsData.merge (redistribute (coll.merge (runBatchAux settings fetchFn b ([], [], [])).1)))
        (computeBreaking (flattenValues (coll.merge (runBatchAux settings fetchFn b ([], [], [])).1)))
        (st.errors.merge (runBatchAux settings fetchFn b ([], [], [])).2.1), ?_, _, _, _, _,
        rfl, hcoll2, herr2⟩
      rw [ht]
      refine List.mem_append_left _ ?_
      exact List.mem_append_right _ (by simp)
  | cons p pre2 ih =>
    intro b post coll st tr hkb hpost
    simp only [List.cons_append]
    simp only [processBatches]
    exact ih hkb hpost

theorem processBatches_fetched {settings : Settings} {fetchFn : Fetcher} {k : String}
    {cfg : SectionCfg} (hcfg : settings.sections.find? k = some cfg)
    (hen : cfg.enabled = true) :
    ∀ {batches : List (List String)} {coll : StrMap (List Article)} {st : NewsState}
      {tr : List Event} {b : List String}, b ∈ batches → k ∈ b →
      Event.fetch k (jsCount cfg.count + 5) settings.newsSources ∈
        (processBatches settings fetchFn batches coll st tr).2 := by
  intro batches
  induction batches with
  | nil => intro coll st tr b hb _; simp at hb
  | cons batch rest ih =>
    intro coll st tr b hb hkb
    rcases List.mem_cons.mp hb with hb | hb
    · subst hb
      simp only [processBatches]
      rcases @processBatches_trace_ext settings fetchFn rest
        (coll.merge (runBatchAux settings fetchFn b ([], [], [])).1) _ _ with ⟨t, ht⟩
      rw [ht]
      refine List.mem_append_left _ ?_
      refine List.mem_append_left _ ?_
      refine List.mem_append_right _ ?_
      exact runBatchAux_fetched hcfg hen hkb
    · simp only [processBatches]
      exact ih hb hkb

theorem contains_true_iff_mem (l : List String) (s : String) :
    l.contains s = true ↔ s ∈ l := by
  induction l with
  | nil => simp
  | cons a l ih => simp [List.contains_cons, ih]

theorem occCount_filter_split (k : String) (p : String → Bool) (l : List String) :
    occCount k (l.filter p) + occCount k (l.filter (fun s => !p s)) = occCount k l := by
  induction l with
  | nil => rfl
  | cons a l ih =>
    rw [List.filter_cons, List.filter_cons]
    by_cases hp : p a = true
    · have hp2 : (!p a) = false := by simp [hp]
      rw [if_pos hp, if_neg (by simp [hp2])]
      rw [occCount_cons, occCount_cons]
      omega
    · have hp2 : (!p a) = true := by simp [Bool.not_eq_true] at hp ⊢; exact hp
      rw [if_neg (by simp [hp]), if_pos hp2]
      rw [occCount_cons, occCount_cons]
      omega

theorem breakingCond_eq (a : Article) :
    breakingCond a = (a.isBreaking || decide (breakingThreshold < breakingOf a)) := by
  cases hb : a.breakingScore with
  | none =>
    have h0 : decide (breakingThreshold < (0 : ℚ)) = false := by decide
    simp [breakingCond, breakingOf, hb, h0]
  | some s =>
    by_cases h0 : s = 0
    · subst h0
      have hd : decide (breakingThreshold < (0 : ℚ)) = false := by decide
      simp [breakingCond, breakingOf, hb, hd]
    · simp [breakingCond, breakingOf, hb, h0]

/-- C1: reclassification invariant.  If every published bucket already
satisfies the classification invariant, then after a refresh (with any
configuration, adapter behaviour and requested section list) the final
state and every per-wave published snapshot still do: every article sits
in the bucket named by its own classified section; in particular an
article whose adapter-declared `section` is "business" never appears in
the published "world" bucket. -/
theorem claim_C1 (settingsOpt : Option Settings) (fetchFn : Fetcher) (now : Int)
    (spec : Option (List String)) (st : NewsState) (hst : ClassifiedMap st.newsData) :
    ClassifiedMap (refreshNews settingsOpt fetchFn now spec st).1.newsData ∧
    (∀ ev ∈ (refreshNews settingsOpt fetchFn now spec st).2, PubClassified ev) ∧
    (∀ ev ∈ (refreshNews settingsOpt fetchFn now spec st).2,
      ∀ acc nd bk er, ev = Event.publish acc nd bk er →
        ∀ b, nd.find? "world" = some b →
          ∀ a ∈ b, a.sectionField ≠ some "business") := by
  have key : ClassifiedMap (refreshNews settingsOpt fetchFn now spec st).1.newsData ∧
      ∀ ev ∈ (refreshNews settingsOpt fetchFn now spec st).2, PubClassified ev := by
    cases settingsOpt with
    | none =>
      refine ⟨hst, ?_⟩
      intro ev hev
      simp [refreshNews] at hev
    | some settings =>
      simp only [refreshNews]
      exact processBatches_classified hst (by intro ev hev; simp at hev)
  refine ⟨key.1, key.2, ?_⟩
  intro ev hev acc nd bk er heq b hb a ha hfield
  have hclass := key.2 ev hev acc nd bk er heq
  have hmem := StrMap.find?_mem hb
  have hw := hclass _ hmem a ha
  have hbiz : classifySection a = "business" := by simp [classifySection, hfield]
  rw [hbiz] at hw
  have hw2 : "business" = "world" := hw
  exact absurd hw2 (by decide)

/-- C1 witness: from the empty initial state, a concrete refresh whose
world fetch returns a business-classified article satisfies the
invariant at every publish and in the final state. -/
theorem claim_C1_witness :
    ClassifiedMap st0.newsData ∧
    (ClassifiedMap (refreshNews (some exSettings) exFetch 0 none st0).1.newsData ∧
    (∀ ev ∈ (refreshNews (some exSettings) exFetch 0 none st0).2, PubClassified ev) ∧
    (∀ ev ∈ (refreshNews (some exSettings) exFetch 0 none st0).2,
      ∀ acc nd bk er, ev = Event.publish acc nd bk er →
        ∀ b, nd.find? "world" = some b →
          ∀ a ∈ b, a.sectionField ≠ some "business")) := by
  exact ⟨by decide, claim_C1 (some exSettings) exFetch 0 none st0 (by decide)⟩

/-- C2: sort invariant.  If every published bucket is already
non-increasing in `impactScore` on adjacent pairs, then after a refresh
the final state and every per-wave published snapshot still are; and the
sort used to build the buckets is stable: articles sharing any fixed
`impactScore` value appear in exactly their input relative order. -/
theorem claim_C2 (settingsOpt : Option Settings) (fetchFn : Fetcher) (now : Int)
    (spec : Option (List String)) (st : NewsState) (hst : SortedMap st.newsData) :
    SortedMap (refreshNews settingsOpt fetchFn now spec st).1.newsData ∧
    (∀ ev ∈ (refreshNews settingsOpt fetchFn now spec st).2, PubSorted ev) ∧
    ∀ (l : List Article) (c : ℚ),
      (sortDescBy impactOf l).filter (fun a => impactOf a = c) =
        l.filter (fun a => impactOf a = c) := by
  have key : SortedMap (refreshNews settingsOpt fetchFn now spec st).1.newsData ∧
      ∀ ev ∈ (refreshNews settingsOpt fetchFn now spec st).2, PubSorted ev := by
    cases settingsOpt with
    | none =>
      refine ⟨hst, ?_⟩
      intro ev hev
      simp [refreshNews] at hev
    | some settings =>
      simp only [refreshNews]
      exact processBatches_sorted hst (by intro ev hev; simp at hev)
  exact ⟨key.1, key.2, fun l c => filter_sortDescBy impactOf l c⟩

/-- C2 witness: concrete refresh from the empty state; both the
invariant and the stability equation hold at the instantiation. -/
theorem claim_C2_witness :
    SortedMap st0.newsData ∧
    (SortedMap (refreshNews (some exSettings) exFetch 0 none st0).1.newsData ∧
    (∀ ev ∈ (refreshNews (some exSettings) exFetch 0 none st0).2, PubSorted ev) ∧
    ∀ (l : List Article) (c : ℚ),
      (sortDescBy impactOf l).filter (fun a => impactOf a = c) =
        l.filter (fun a => impactOf a = c)) := by
  exact ⟨by decide, claim_C2 (some exSettings) exFetch 0 none st0 (by decide)⟩

/-- C4: after every wave, the published breaking shortlist equals the
accumulated articles passing the breaking filter (`isBreaking` or
`breakingScore` above the 1.5 cutoff, missing scores counting 0), sorted
by `breakingScore` descending and truncated to three; hence its length
is at most 3, and it is empty when no accumulated article passes. -/
theorem claim_C4 (settingsOpt : Option Settings) (fetchFn : Fetcher) (now : Int)
    (spec : Option (List String)) (st : NewsState) :
    breakingThreshold = (1.5 : ℚ) ∧
    ∀ ev ∈ (refreshNews settingsOpt fetchFn now spec st).2,
      ∀ acc nd bk er, ev = Event.publish acc nd bk er →
        bk = (sortDescBy breakingOf ((flattenValues acc).filter
          (fun a => a.isBreaking || decide (breakingThreshold < breakingOf a)))).take 3 ∧
        bk.length ≤ 3 ∧
        ((∀ a ∈ flattenValues acc,
            a.isBreaking = false ∧ breakingOf a ≤ breakingThreshold) → bk = []) := by
  refine ⟨by norm_num [breakingThreshold], ?_⟩
  intro ev hev acc nd bk er heq
  have hbk : bk = computeBreaking (flattenValues acc) := by
    cases settingsOpt with
    | none => simp [refreshNews] at hev
    | some settings =>
      simp only [refreshNews] at hev
      exact processBatches_breaking (by intro ev2 hev2; simp at hev2) ev hev
        acc nd bk er heq
  have hfil : (flattenValues acc).filter breakingCond =
      (flattenValues acc).filter
        (fun a => a.isBreaking || decide (breakingThreshold < breakingOf a)) :=
    List.filter_congr (fun a _ => breakingCond_eq a)
  refine ⟨?_, ?_, ?_⟩
  · rw [hbk]
    unfold computeBreaking
    rw [hfil]
  · rw [hbk]
    unfold computeBreaking
    exact List.length_take_le _ _
  · intro hall
    rw [hbk]
    unfold computeBreaking
    have hnil : (flattenValues acc).filter breakingCond = [] := by
      rw [hfil]
      rw [List.filter_eq_nil_iff]
      intro a ha
      rcases hall a ha with ⟨h1, h2⟩
      simp [h1, not_lt.mpr h2]
    rw [hnil]
    rfl

theorem proximityFold_le {text : String} :
    ∀ {locs : StrMap ℚ} {init : ℚ}, init ≤ proximityFold text locs init := by
  intro locs
  induction locs with
  | nil => intro init; exact le_refl _
  | cons p rest ih =>
    intro init
    simp only [proximityFold]
    by_cases hm : jsIncludes text (jsToLower p.1) = true
    · rw [if_pos hm]
      by_cases hgt : p.2 > init
      · rw [if_pos hgt]
        exact le_trans (le_of_lt hgt) ih
      · rw [if_neg hgt]
        exact ih
    · rw [if_neg hm]
      exact ih

theorem proximityFold_ge_match {text : String} :
    ∀ {locs : StrMap ℚ} {init : ℚ} {p : String × ℚ}, p ∈ locs →
      jsIncludes text (jsToLower p.1) = true → p.2 ≤ proximityFold text locs init := by
  intro locs
  induction locs with
  | nil => intro init p hp; simp at hp
  | cons q rest ih =>
    intro init p hp hm
    simp only [proximityFold]
    rcases List.mem_cons.mp hp with hp | hp
    · subst hp
      rw [if_pos hm]
      by_cases hgt : p.2 > init
      · rw [if_pos hgt]
        exact proximityFold_le
      · rw [if_neg hgt]
        exact le_trans (le_of_not_lt hgt) proximityFold_le
    · exact ih hp hm

theorem proximityFold_no_match {text : String} :
    ∀ {locs : StrMap ℚ} {init : ℚ},
      (∀ p ∈ locs, jsIncludes text (jsToLower p.1) = false) →
      proximityFold text locs init = init := by
  intro locs
  induction locs with
  | nil => intro init _; rfl
  | cons q rest ih =>
    intro init h
    simp only [proximityFold]
    rw [if_neg (by simp [h q (by simp)])]
    exact ih fun p hp => h p (List.mem_cons_of_mem _ hp)

theorem proximityFold_cases {text : String} :
    ∀ {locs : StrMap ℚ} {init : ℚ},
      proximityFold text locs init = init ∨
      ∃ p ∈ locs, jsIncludes text (jsToLower p.1) = true ∧
        proximityFold text locs init = p.2 := by
  intro locs
  induction locs with
  | nil => intro init; exact Or.inl rfl
  | cons q rest ih =>
    intro init
    simp only [proximityFold]
    by_cases hm : jsIncludes text (jsToLower q.1) = true
    · rw [if_pos hm]
      by_cases hgt : q.2 > init
      · rw [if_pos hgt]
        rcases @ih q.2 with h | ⟨p, hp, hpm, hpe⟩
        · exact Or.inr ⟨q, by simp, hm, h⟩
        · exact Or.inr ⟨p, List.mem_cons_of_mem _ hp, hpm, hpe⟩
      · rw [if_neg hgt]
        rcases @ih init with h | ⟨p, hp, hpm, hpe⟩
        · exact Or.inl h
        · exact Or.inr ⟨p, List.mem_cons_of_mem _ hp, hpm, hpe⟩
    · rw [if_neg hm]
      rcases @ih init with h | ⟨p, hp, hpm, hpe⟩
      · exact Or.inl h
      · exact Or.inr ⟨p, List.mem_cons_of_mem _ hp, hpm, hpe⟩

/-- C7: when proximity scoring is disabled the result is exactly 1;
when enabled it is the maximum boost over gazetteer entries matching
case-insensitively in title + description (1 when none match, and, for a
gazetteer of boosts ≥ 1, an attained matching boost when any entry
matches); the result is always ≥ 1 and depends on the configuration only
through the proximity toggle (deterministic, no hidden state). -/
theorem claim_C7 (locations : StrMap ℚ) (settings : Settings)
    (title description : String) :
    (settings.enableProximityScoring = some false →
      calculateProximityScore locations settings title description = 1) ∧
    1 ≤ calculateProximityScore locations settings title description ∧
    (∀ p ∈ locations,
      jsIncludes (jsToLower (title ++ " " ++ description)) (jsToLower p.1) = true →
      settings.enableProximityScoring ≠ some false →
      p.2 ≤ calculateProximityScore locations settings title description) ∧
    ((∀ p ∈ locations,
        jsIncludes (jsToLower (title ++ " " ++ description)) (jsToLower p.1) = false) →
      calculateProximityScore locations settings title description = 1) ∧
    (settings.enableProximityScoring ≠ some false →
      (∀ p ∈ locations, 1 ≤ p.2) →
      (∃ p ∈ locations,
        jsIncludes (jsToLower (title ++ " " ++ description)) (jsToLower p.1) = true) →
      ∃ p ∈ locations,
        jsIncludes (jsToLower (title ++ " " ++ description)) (jsToLower p.1) = true ∧
        calculateProximityScore locations settings title description = p.2) ∧
    (∀ settings2 : Settings,
      settings2.enableProximityScoring = settings.enableProximityScoring →
      calculateProximityScore locations settings2 title description =
        calculateProximityScore locations settings title description) := by
  refine ⟨?_, ?_, ?_, ?_, ?_, ?_⟩
  · intro hd
    simp [calculateProximityScore, hd]
  · by_cases hd : settings.enableProximityScoring = some false
    · simp [calculateProximityScore, hd]
    · simp only [calculateProximityScore, if_neg hd]
      exact proximityFold_le
  · intro p hp hm hd
    simp only [calculateProximityScore, if_neg hd]
    exact proximityFold_ge_match hp hm
  · intro hnone
    by_cases hd : settings.enableProximityScoring = some false
    · simp [calculateProximityScore, hd]
    · simp only [calculateProximityScore, if_neg hd]
      exact proximityFold_no_match hnone
  · intro hd hge ⟨p0, hp0, hm0⟩
    simp only [calculateProximityScore, if_neg hd]
    rcases @proximityFold_cases (jsToLower (title ++ " " ++ description))
      locations 1 with h | ⟨p, hp, hpm, hpe⟩
    · refine ⟨p0, hp0, hm0, ?_⟩
      have h1 : p0.2 ≤ proximityFold (jsToLower (title ++ " " ++ description)) locations 1 :=
        proximityFold_ge_match hp0 hm0
      rw [h] at h1 ⊢
      exact le_antisymm (hge p0 hp0) h1
    · exact ⟨p, hp, hpm, hpe⟩
  · intro settings2 heq
    by_cases hd : settings.enableProximityScoring = some false
    · have hd2 : settings2.enableProximityScoring = some false := by rw [heq]; exact hd
      simp [calculateProximityScore, hd, hd2]
    · have hd2 : ¬ settings2.enableProximityScoring = some false := by
        rw [heq]; exact hd
      simp only [calculateProximityScore, if_neg hd, if_neg hd2]

/-- C7 witness: with the gazetteer entry muscat → 1.8 (written as the
exact rational 9/5), the spec's three concrete evaluations hold at this
theorem's concrete instantiation. -/
theorem claim_C7_witness :
    (mkRat 9 5 = (1.8 : ℚ)) ∧
    calculateProximityScore [("Muscat", mkRat 9 5)]
      { exSettings with enableProximityScoring := some false }
      "Flooding reported near Muscat" "" = 1 ∧
    calculateProximityScore [("Muscat", mkRat 9 5)]
      { exSettings with enableProximityScoring := some true }
      "Flooding reported near Muscat" "" = mkRat 9 5 ∧
    calculateProximityScore [("Muscat", mkRat 9 5)]
      { exSettings with enableProximityScoring := some true }
      "nothing nearby" "" = 1 := by
  refine ⟨by norm_num, ?_, ?_, ?_⟩
  · exact (claim_C7 [("Muscat", mkRat 9 5)]
      { exSettings with enableProximityScoring := some false }
      "Flooding reported near Muscat" "").1 (by decide)
  · rcases (claim_C7 [("Muscat", mkRat 9 5)]
      { exSettings with enableProximityScoring := some true }
      "Flooding reported near Muscat" "").2.2.2.2.1 (by decide) (by decide)
      ⟨("Muscat", mkRat 9 5), by decide, by decide⟩ with ⟨p, hp, _, hpe⟩
    rw [hpe]
    have hps : p = ("Muscat", mkRat 9 5) := List.mem_singleton.mp hp
    rw [hps]
  · exact (claim_C7 [("Muscat", mkRat 9 5)]
      { exSettings with enableProximityScoring := some true }
      "nothing nearby" "").2.2.2.1 (by decide)

/-- C5: the first monitor evaluation only records the fingerprint and
triggers nothing; a later evaluation whose stored fingerprint differs
triggers exactly one cache invalidation and one `refresh(null)`
(in particular after flipping `newsSources.bbc` from true to false);
an evaluation with an equal fingerprint — e.g. after changing only
`uiMode`, which is outside the fingerprint — triggers neither. -/
theorem claim_C5 (s s2 : Settings) (u : String) :
    (monitorStep s none = ⟨some (fingerprintOf s), 0, []⟩) ∧
    (∀ h : Fingerprint, h ≠ fingerprintOf s →
      monitorStep s (some h) = ⟨some (fingerprintOf s), 1, [none]⟩) ∧
    (fingerprintOf s = fingerprintOf s2 →
      monitorStep s2 (some (fingerprintOf s)) = ⟨some (fingerprintOf s2), 0, []⟩) ∧
    (fingerprintOf { s with uiMode := u } = fingerprintOf s) ∧
    (monitorStep { s with uiMode := u } (some (fingerprintOf s)) =
      ⟨some (fingerprintOf s), 0, []⟩) ∧
    (s.newsSources.find? "bbc" = some true →
      monitorStep { s with newsSources := s.newsSources.set "bbc" false }
          (some (fingerprintOf s)) =
        ⟨some (fingerprintOf { s with newsSources := s.newsSources.set "bbc" false }),
         1, [none]⟩) := by
  refine ⟨rfl, ?_, ?_, rfl, ?_, ?_⟩
  · intro h hne
    simp [monitorStep, hne]
  · intro heq
    simp [monitorStep, heq]
  · simp [monitorStep, fingerprintOf]
  · intro hbbc
    have hne : fingerprintOf s ≠
        fingerprintOf { s with newsSources := s.newsSources.set "bbc" false } := by
      intro heq
      have hsrc := congrArg Fingerprint.sources heq
      simp only [fingerprintOf] at hsrc
      have : (s.newsSources.set "bbc" false).find? "bbc" = s.newsSources.find? "bbc" := by
        rw [← hsrc]
      rw [StrMap.find?_set_self, hbbc] at this
      simp at this
    simp [monitorStep, hne]

/-- C5 witness: concrete first evaluation, a bbc flip triggering exactly
one invalidation and one `refresh(null)`, and a uiMode change triggering
neither. -/
theorem claim_C5_witness :
    (monitorStep exSettings none = ⟨some (fingerprintOf exSettings), 0, []⟩) ∧
    (monitorStep { exSettings with uiMode := "classic" }
      (some (fingerprintOf exSettings)) = ⟨some (fingerprintOf exSettings), 0, []⟩) ∧
    (exSettings.newsSources.find? "bbc" = some true) ∧
    (monitorStep { exSettings with newsSources := exSettings.newsSources.set "bbc" false }
        (some (fingerprintOf exSettings)) =
      ⟨some (fingerprintOf
        { exSettings with newsSources := exSettings.newsSources.set "bbc" false }),
       1, [none]⟩) := by
  refine ⟨(claim_C5 exSettings exSettings "classic").1,
    (claim_C5 exSettings exSettings "classic").2.2.2.2.1,
    by decide,
    (claim_C5 exSettings exSettings "classic").2.2.2.2.2 (by decide)⟩

/-- C9: when the configuration store returns nothing, the refresh cycle
aborts without invoking any adapter and leaves the published sections,
breaking shortlist, errors and completion timestamp unchanged; a
subsequent refresh behaves exactly as if the aborted cycle had never
happened. -/
theorem claim_C9 (fetchFn : Fetcher) (now : Int) (spec : Option (List String))
    (st : NewsState) :
    refreshNews none fetchFn now spec st = ({ st with loading := false }, []) ∧
    (refreshNews none fetchFn now spec st).1.newsData = st.newsData ∧
    (refreshNews none fetchFn now spec st).1.breakingNews = st.breakingNews ∧
    (refreshNews none fetchFn now spec st).1.errors = st.errors ∧
    (refreshNews none fetchFn now spec st).1.lastFetch = st.lastFetch ∧
    (refreshNews none fetchFn now spec st).2 = [] ∧
    ∀ (settings : Settings) (f2 : Fetcher) (now2 : Int) (spec2 : Option (List String)),
      refreshNews (some settings) f2 now2 spec2 (refreshNews none fetchFn now spec st).1 =
        refreshNews (some settings) f2 now2 spec2 st := by
  exact ⟨rfl, rfl, rfl, rfl, rfl, rfl, fun _ _ _ _ => rfl⟩

theorem occCount_nil (k : String) : occCount k [] = 0 := rfl

theorem sum_occ_batches (k : String) (hp lp : List String) :
    ((([hp, lp] : List (List String)).filter (fun b => !b.isEmpty)).map (occCount k)).sum =
      occCount k hp + occCount k lp := by
  cases h1 : hp.isEmpty with
  | true =>
    have h1e : hp = [] := List.isEmpty_iff.mp (by simp [h1])
    cases h2 : lp.isEmpty with
    | true =>
      have h2e : lp = [] := List.isEmpty_iff.mp (by simp [h2])
      subst h1e
      subst h2e
      rfl
    | false =>
      subst h1e
      simp [List.filter_cons, h2, occCount_nil]
  | false =>
    cases h2 : lp.isEmpty with
    | true =>
      have h2e : lp = [] := List.isEmpty_iff.mp (by simp [h2])
      subst h2e
      simp [List.filter_cons, h1, occCount_nil]
    | false =>
      simp [List.filter_cons, h1, h2]

/-- C10 (frame property, per publish): each per-batch publish merges the
freshly rebucketed buckets into the previous snapshot rather than
replacing the whole map.  For every publish event of the cycle's trace,
a section key that is neither among the sections fetched so far — by the
adapter invocations preceding that publish — nor the classified section
of any article those invocations returned keeps its previously published
bucket, and its previously recorded error entry, exactly unchanged; and
when every fetch of the whole cycle avoids the key, the final state
preserves both as well. -/
theorem claim_C10 (settings : Settings) (fetchFn : Fetcher) (now : Int)
    (spec : Option (List String)) (st : NewsState) (k : String) :
    (∀ t rest acc nd bk er,
      (refreshNews (some settings) fetchFn now spec st).2 =
        t ++ Event.publish acc nd bk er :: rest →
      (∀ ev ∈ t, FetchAvoids fetchFn k ev) →
      nd.find? k = st.newsData.find? k ∧ er.find? k = st.errors.find? k) ∧
    ((∀ ev ∈ (refreshNews (some settings) fetchFn now spec st).2,
        FetchAvoids fetchFn k ev) →
      (refreshNews (some settings) fetchFn now spec st).1.newsData.find? k =
        st.newsData.find? k ∧
      (refreshNews (some settings) fetchFn now spec st).1.errors.find? k =
        st.errors.find? k) := by
  constructor
  · intro t rest acc nd bk er heq havoid
    simp only [refreshNews] at heq
    refine processBatches_frame_publish ?_ ?_ t rest acc nd bk er heq havoid
    · intro t2 rest2 acc2 nd2 bk2 er2 heq2 _
      cases t2 <;> simp at heq2
    · intro _
      refine ⟨?_, rfl, rfl⟩
      intro e he
      simp at he
  · intro hall
    simp only [refreshNews] at hall ⊢
    refine processBatches_frame_final ?_ hall
    intro _
    refine ⟨?_, rfl, rfl⟩
    intro e he
    simp at he

/-- C10 witness: with a previously published business bucket and a
previously recorded business error entry, a cycle over
["world", "business"] fetches "world" in the high-priority wave and
"business" only in the later low-priority wave; at the high-priority
publish the only fetch so far is the world fetch, which avoids
"business", so that publish carries the business bucket and the business
error entry exactly unchanged. -/
theorem claim_C10_witness :
    ((refreshNews (some exSettings) exFetchW 0 (some ["world", "business"]) stPrev).2 =
      [Event.fetch "world" 10 exSettings.newsSources] ++
        Event.publish [("world", [exW1])]
            [("business", [exBOld]), ("world", [exW1])] [] [("business", "old")] ::
          ((refreshNews (some exSettings) exFetchW 0
            (some ["world", "business"]) stPrev).2.drop 2)) ∧
    (∀ ev ∈ [Event.fetch "world" 10 exSettings.newsSources],
      FetchAvoids exFetchW "business" ev) ∧
    (StrMap.find? [("business", [exBOld]), ("world", [exW1])] "business" =
        stPrev.newsData.find? "business" ∧
      StrMap.find? [("business", "old")] "business" =
        stPrev.errors.find? "business") :=
  ⟨by decide, by decide,
    (claim_C10 exSettings exFetchW 0 (some ["world", "business"]) stPrev "business").1
      [Event.fetch "world" 10 exSettings.newsSources]
      ((refreshNews (some exSettings) exFetchW 0
        (some ["world", "business"]) stPrev).2.drop 2)
      [("world", [exW1])] [("business", [exBOld]), ("world", [exW1])] []
      [("business", "old")] (by decide) (by decide)⟩

/-- C8 (amended): in a refresh cycle every enabled requested section is
fetched once per occurrence in the resolved list, always with the
configured per-source enable map and a target count of the configured
per-section count — defaulting to 10 when absent or zero — plus 5;
sections not marked enabled are never fetched. -/
theorem claim_C8 (settings : Settings) (fetchFn : Fetcher) (now : Int)
    (spec : Option (List String)) (st : NewsState) (k : String) :
    fetchCount k (refreshNews (some settings) fetchFn now spec st).2 =
      (if enabledIn settings k = true then occCount k (spec.getD allSections) else 0) ∧
    ∀ ev ∈ (refreshNews (some settings) fetchFn now spec st).2,
      FetchShape settings ev := by
  constructor
  · simp only [refreshNews]
    rw [processBatches_fetchCount]
    have h0 : fetchCount k ([] : List Event) = 0 := rfl
    rw [h0, Nat.zero_add, sum_occ_batches]
    rw [occCount_filter_split k (fun s => highPrioritySections.contains s)
      (spec.getD allSections)]
  · simp only [refreshNews]
    exact processBatches_fetchShape (by intro ev hev; simp at hev)

/-- C8 witness: with world's count configured as 3, the refresh fetches
world exactly once, and every fetch event carries the configured source
map and the `(count || 10) + 5` target. -/
theorem claim_C8_witness :
    fetchCount "world"
        (refreshNews (some exSettings) exFetch 0 (some ["world", "business"]) st0).2 =
      (if enabledIn exSettings "world" = true
       then occCount "world" ((some ["world", "business"] :
         Option (List String)).getD allSections) else 0) ∧
    ∀ ev ∈ (refreshNews (some exSettings) exFetch 0 (some ["world", "business"]) st0).2,
      FetchShape exSettings ev :=
  claim_C8 exSettings exFetch 0 (some ["world", "business"]) st0 "world"

/-- C8 counterexample: with a configured per-section count of 0 the
adapter is invoked with target 15, not the claimed `0 + 5`. -/
theorem claim_C8_counterexample :
    (StrMap.find? exSettingsZero.sections "world" = some ⟨true, some 0⟩) ∧
    (∃ ev ∈ (refreshNews (some exSettingsZero) exFetch 0 (some ["world"]) st0).2,
      ev = Event.fetch "world" 15 exSettingsZero.newsSources) ∧
    ¬ (∃ ev ∈ (refreshNews (some exSettingsZero) exFetch 0 (some ["world"]) st0).2,
      ev = Event.fetch "world" (0 + 5) exSettingsZero.newsSources) := by
  decide

theorem processBatches_split (settings : Settings) (fetchFn : Fetcher)
    (b1 : List String) (rest : List (List String)) (coll : StrMap (List Article))
    (st : NewsState) (tr : List Event) :
    ∃ t1 t2, (processBatches settings fetchFn (b1 :: rest) coll st tr).2 =
        tr ++ t1 ++ t2 ∧
      (∀ ev ∈ t1, ∀ k c srcs, ev = Event.fetch k c srcs → k ∈ b1) ∧
      (∀ ev ∈ t2, ∀ k c srcs, ev = Event.fetch k c srcs → ∃ b ∈ rest, k ∈ b) := by
  rcases @runBatchAux_trace settings fetchFn b1 ([] : StrMap (List Article))
    ([] : StrMap String) ([] : List Event) with ⟨u, hu, hpropu⟩
  simp only [processBatches]
  generalize hE : runBatchAux settings fetchFn b1 ([], [], []) = E
  rw [hE] at hu
  generalize hC : coll.merge E.1 = C2
  generalize hP : Event.publish C2 (st.newsData.merge (redistribute C2))
    (computeBreaking (flattenValues C2)) (st.errors.merge E.2.1) = P
  obtain ⟨t2, ht2, hprop2⟩ := @processBatches_sections settings fetchFn rest C2
    (NewsState.mk (st.newsData.merge (redistribute C2))
      (computeBreaking (flattenValues C2)) (st.errors.merge E.2.1)
      st.lastFetch st.loading)
    (tr ++ E.2.2 ++ [P])
  refine ⟨E.2.2 ++ [P], t2, ?_, ?_, ?_⟩
  · rw [ht2]
    simp [List.append_assoc]
  · intro ev hev k c srcs heq
    rcases List.mem_append.mp hev with hev | hev
    · rw [hu] at hev
      simp only [List.nil_append] at hev
      rcases hpropu ev hev with ⟨k2, cfg2, hk2, _, _, hev2⟩
      rw [hev2] at heq
      injection heq with e1 e2 e3
      subst e1
      exact hk2
    · simp only [List.mem_singleton] at hev
      subst hev
      rw [← hP] at heq
      simp at heq
  · intro ev hev k c srcs heq
    exact hprop2 ev hev k c srcs heq

theorem length_filter_batches (hp lp : List String) :
    (([hp, lp] : List (List String)).filter (fun b => !b.isEmpty)).length =
      (if hp.isEmpty then 0 else 1) + (if lp.isEmpty then 0 else 1) := by
  cases h1 : hp.isEmpty <;> cases h2 : lp.isEmpty <;> simp [List.filter_cons, h1, h2]

/-- C6: the resolved section list is partitioned into the fixed
high-priority subset and the remainder; the event trace of a refresh
splits into a first segment whose fetches are all of high-priority
sections and a second whose fetches are all of low-priority sections
(so no low-priority fetch is issued before every high-priority fetch of
the cycle has settled); empty batches are skipped and exactly one
snapshot publish occurs per non-empty batch. -/
theorem claim_C6 (settings : Settings) (fetchFn : Fetcher) (now : Int)
    (spec : Option (List String)) (st : NewsState) :
    ((spec.getD allSections).filter (fun s => highPrioritySections.contains s) ++
      (spec.getD allSections).filter (fun s => !highPrioritySections.contains s)).Perm
      (spec.getD allSections) ∧
    (∀ s ∈ (spec.getD allSections).filter (fun s => highPrioritySections.contains s),
      s ∈ highPrioritySections) ∧
    (∀ s ∈ (spec.getD allSections).filter (fun s => !highPrioritySections.contains s),
      s ∉ highPrioritySections) ∧
    (∃ t1 t2, (refreshNews (some settings) fetchFn now spec st).2 = t1 ++ t2 ∧
      (∀ ev ∈ t1, ∀ k c srcs, ev = Event.fetch k c srcs →
        k ∈ highPrioritySections) ∧
      (∀ ev ∈ t2, ∀ k c srcs, ev = Event.fetch k c srcs →
        k ∉ highPrioritySections)) ∧
    pubCount (refreshNews (some settings) fetchFn now spec st).2 =
      (if ((spec.getD allSections).filter
            (fun s => highPrioritySections.contains s)).isEmpty then 0 else 1) +
      (if ((spec.getD allSections).filter
            (fun s => !highPrioritySections.contains s)).isEmpty then 0 else 1) := by
  have hpmem : ∀ s ∈ (spec.getD allSections).filter
      (fun s => highPrioritySections.contains s), s ∈ highPrioritySections := by
    intro s hs
    exact (contains_true_iff_mem _ _).mp (List.mem_filter.mp hs).2
  have hlmem : ∀ s ∈ (spec.getD allSections).filter
      (fun s => !highPrioritySections.contains s), s ∉ highPrioritySections := by
    intro s hs hmem
    have h2 := (List.mem_filter.mp hs).2
    rw [(contains_true_iff_mem _ _).mpr hmem] at h2
    simp at h2
  refine ⟨List.filter_append_perm _ _, hpmem, hlmem, ?_, ?_⟩
  · simp only [refreshNews]
    by_cases h1 : ((spec.getD allSections).filter
        (fun s => highPrioritySections.contains s)).isEmpty
    · by_cases h2 : ((spec.getD allSections).filter
          (fun s => !highPrioritySections.contains s)).isEmpty
      · have hbeq : (([(spec.getD allSections).filter
              (fun s => highPrioritySections.contains s),
            (spec.getD allSections).filter
              (fun s => !highPrioritySections.contains s)] :
            List (List String)).filter (fun b => !b.isEmpty)) = [] := by
          rw [List.filter_cons, if_neg (by rw [h1]; simp), List.filter_cons,
            if_neg (by rw [h2]; simp), List.filter_nil]
        rw [hbeq]
        exact ⟨[], [], rfl, by simp, by simp⟩
      · have h2b : ((spec.getD allSections).filter
            (fun s => !highPrioritySections.contains s)).isEmpty = false := by
          simpa using h2
        have hbeq : (([(spec.getD allSections).filter
              (fun s => highPrioritySections.contains s),
            (spec.getD allSections).filter
              (fun s => !highPrioritySections.contains s)] :
            List (List String)).filter (fun b => !b.isEmpty)) =
            ((spec.getD allSections).filter
              (fun s => !highPrioritySections.contains s)) :: [] := by
          rw [List.filter_cons, if_neg (by rw [h1]; simp), List.filter_cons,
            if_pos (by rw [h2b]; rfl), List.filter_nil]
        rw [hbeq]
        rcases processBatches_split settings fetchFn _ []
          [] { st with loading := true } [] with ⟨t1, t2, ht, hq1, hq2⟩
        refine ⟨[], t1 ++ t2, ?_, by simp, ?_⟩
        · rw [ht]
          simp
        · intro ev hev k c srcs heq
          rcases List.mem_append.mp hev with hev | hev
          · exact hlmem k (hq1 ev hev k c srcs heq)
          · rcases hq2 ev hev k c srcs heq with ⟨b, hb, _⟩
            simp at hb
    · by_cases h2 : ((spec.getD allSections).filter
          (fun s => !highPrioritySections.contains s)).isEmpty
      · have h1b : ((spec.getD allSections).filter
            (fun s => highPrioritySections.contains s)).isEmpty = false := by
          simpa using h1
        have hbeq : (([(spec.getD allSections).filter
              (fun s => highPrioritySections.contains s),
            (spec.getD allSections).filter
              (fun s => !highPrioritySections.contains s)] :
            List (List String)).filter (fun b => !b.isEmpty)) =
            ((spec.getD allSections).filter
              (fun s => highPrioritySections.contains s)) :: [] := by
          rw [List.filter_cons, if_pos (by rw [h1b]; rfl), List.filter_cons,
            if_neg (by rw [h2]; simp), List.filter_nil]
        rw [hbeq]
        rcases processBatches_split settings fetchFn _ []
          [] { st with loading := true } [] with ⟨t1, t2, ht, hq1, hq2⟩
        refine ⟨t1 ++ t2, [], ?_, ?_, by simp⟩
        · rw [ht]
          simp
        · intro ev hev k c srcs heq
          rcases List.mem_append.mp hev with hev | hev
          · exact hpmem k (hq1 ev hev k c srcs heq)
          · rcases hq2 ev hev k c srcs heq with ⟨b, hb, _⟩
            simp at hb
      · have h1b : ((spec.getD allSections).filter
            (fun s => highPrioritySections.contains s)).isEmpty = false := by
          simpa using h1
        have h2b : ((spec.getD allSections).filter
            (fun s => !highPrioritySections.contains s)).isEmpty = false := by
          simpa using h2
        have hbeq : (([(spec.getD allSections).filter
              (fun s => highPrioritySections.contains s),
            (spec.getD allSections).filter
              (fun s => !highPrioritySections.contains s)] :
            List (List String)).filter (fun b => !b.isEmpty)) =
            ((spec.getD allSections).filter
              (fun s => highPrioritySections.contains s)) ::
            ((spec.getD allSections).filter
              (fun s => !highPrioritySections.contains s)) :: [] := by
          rw [List.filter_cons, if_pos (by rw [h1b]; rfl), List.filter_cons,
            if_pos (by rw [h2b]; rfl), List.filter_nil]
        rw [hbeq]
        rcases processBatches_split settings fetchFn _
          [((spec.getD allSections).filter (fun s => !highPrioritySections.contains s))]
          [] { st with loading := true } [] with ⟨t1, t2, ht, hq1, hq2⟩
        refine ⟨t1, t2, ?_, ?_, ?_⟩
        · rw [ht]
          simp
        · intro ev hev k c srcs heq
          exact hpmem k (hq1 ev hev k c srcs heq)
        · intro ev hev k c srcs heq
          rcases hq2 ev hev k c srcs heq with ⟨b, hb, hkb⟩
          simp only [List.mem_singleton] at hb
          subst hb
          exact hlmem k hkb
  · simp only [refreshNews]
    rw [processBatches_pubCount]
    have h0 : pubCount ([] : List Event) = 0 := rfl
    rw [h0, Nat.zero_add, length_filter_batches]

/-- C6 witness: the theorem instantiated at a concrete refresh mixing a
high-priority and a low-priority section. -/
theorem claim_C6_witness :
    ((((some ["world", "business"] : Option (List String)).getD allSections).filter
        (fun s => highPrioritySections.contains s) ++
      (((some ["world", "business"] : Option (List String)).getD allSections).filter
        (fun s => !highPrioritySections.contains s))).Perm
      ((some ["world", "business"] : Option (List String)).getD allSections)) ∧
    (∀ s ∈ (((some ["world", "business"] : Option (List String)).getD allSections).filter
        (fun s => highPrioritySections.contains s)), s ∈ highPrioritySections) ∧
    (∀ s ∈ (((some ["world", "business"] : Option (List String)).getD allSections).filter
        (fun s => !highPrioritySections.contains s)), s ∉ highPrioritySections) ∧
    (∃ t1 t2, (refreshNews (some exSettings) exFetch 0
        (some ["world", "business"]) st0).2 = t1 ++ t2 ∧
      (∀ ev ∈ t1, ∀ k c srcs, ev = Event.fetch k c srcs →
        k ∈ highPrioritySections) ∧
      (∀ ev ∈ t2, ∀ k c srcs, ev = Event.fetch k c srcs →
        k ∉ highPrioritySections)) ∧
    pubCount (refreshNews (some exSettings) exFetch 0
        (some ["world", "business"]) st0).2 =
      (if ((((some ["world", "business"] : Option (List String)).getD
            allSections).filter
            (fun s => highPrioritySections.contains s)).isEmpty) then 0 else 1) +
      (if ((((some ["world", "business"] : Option (List String)).getD
            allSections).filter
            (fun s => !highPrioritySections.contains s)).isEmpty) then 0 else 1) :=
  claim_C6 exSettings exFetch 0 (some ["world", "business"]) st0

/-- C3: a refresh never escapes as an exception — failures are data: if
the adapter for an enabled requested section rejects, the cycle still
returns a state in which that section's message is recorded in the
published error map and its accumulated contribution is the empty list,
and every other enabled requested section is still fetched. -/
theorem claim_C3 (settings : Settings) (fetchFn : Fetcher) (now : Int)
    (spec : Option (List String)) (st : NewsState) (k : String) (cfg : SectionCfg)
    (msg : String)
    (hmem : k ∈ spec.getD allSections)
    (hcfg : settings.sections.find? k = some cfg) (hen : cfg.enabled = true)
    (hfail : fetchFn k (jsCount cfg.count + 5) settings.newsSources =
      FetchOutcome.fail msg) :
    (refreshNews (some settings) fetchFn now spec st).1.errors.find? k = some msg ∧
    (∃ ev ∈ (refreshNews (some settings) fetchFn now spec st).2,
      ∃ acc nd bk er, ev = Event.publish acc nd bk er ∧
        acc.find? k = some ([] : List Article) ∧ er.find? k = some msg) ∧
    (∀ k2 ∈ spec.getD allSections, ∀ cfg2,
      settings.sections.find? k2 = some cfg2 → cfg2.enabled = true →
      Event.fetch k2 (jsCount cfg2.count + 5) settings.newsSources ∈
        (refreshNews (some settings) fetchFn now spec st).2) := by
  simp only [refreshNews]
  have hthird : ∀ k2 ∈ spec.getD allSections, ∀ cfg2,
      settings.sections.find? k2 = some cfg2 → cfg2.enabled = true →
      Event.fetch k2 (jsCount cfg2.count + 5) settings.newsSources ∈
        (processBatches settings fetchFn
          (([(spec.getD allSections).filter (fun s => highPrioritySections.contains s),
             (spec.getD allSections).filter (fun s => !highPrioritySections.contains s)] :
            List (List String)).filter (fun b => !b.isEmpty))
          [] { st with loading := true } []).2 := by
    intro k2 hk2 cfg2 hcfg2 hen2
    by_cases hc2 : highPrioritySections.contains k2 = true
    · have hk2hp : k2 ∈ (spec.getD allSections).filter
          (fun s => highPrioritySections.contains s) :=
        List.mem_filter.mpr ⟨hk2, hc2⟩
      refine processBatches_fetched hcfg2 hen2 ?_ hk2hp
      refine List.mem_filter.mpr ⟨by simp, ?_⟩
      simp only [List.isEmpty_eq_false.mpr (List.ne_nil_of_mem hk2hp), Bool.not_false]
    · have hc2f : highPrioritySections.contains k2 = false := by simpa using hc2
      have hk2lp : k2 ∈ (spec.getD allSections).filter
          (fun s => !highPrioritySections.contains s) :=
        List.mem_filter.mpr ⟨hk2, by simp only [hc2f, Bool.not_false]⟩
      refine processBatches_fetched hcfg2 hen2 ?_ hk2lp
      refine List.mem_filter.mpr ⟨by simp, ?_⟩
      simp only [List.isEmpty_eq_false.mpr (List.ne_nil_of_mem hk2lp), Bool.not_false]
  by_cases hck : highPrioritySections.contains k = true
  · have hkhp : k ∈ (spec.getD allSections).filter
        (fun s => highPrioritySections.contains s) :=
      List.mem_filter.mpr ⟨hmem, hck⟩
    have hbeq : (([(spec.getD allSections).filter
            (fun s => highPrioritySections.contains s),
          (spec.getD allSections).filter
            (fun s => !highPrioritySections.contains s)] :
          List (List String)).filter (fun b => !b.isEmpty)) =
        [] ++ ((spec.getD allSections).filter
            (fun s => highPrioritySections.contains s)) ::
          (([(spec.getD allSections).filter
              (fun s => !highPrioritySections.contains s)] :
            List (List String)).filter (fun b => !b.isEmpty)) := by
      rw [List.filter_cons, if_pos (by
        simp only [List.isEmpty_eq_false.mpr (List.ne_nil_of_mem hkhp), Bool.not_false])]
      rfl
    have hpost : ∀ b2 ∈ (([(spec.getD allSections).filter
          (fun s => !highPrioritySections.contains s)] :
        List (List String)).filter (fun b => !b.isEmpty)), k ∉ b2 := by
      intro b2 hb2 hkb2
      have hb2e : b2 = (spec.getD allSections).filter
          (fun s => !highPrioritySections.contains s) := by
        have := List.mem_of_mem_filter hb2
        simpa using this
      subst hb2e
      have hcon := (List.mem_filter.mp hkb2).2
      rw [hck] at hcon
      simp at hcon
    have hmain := @processBatches_fail settings fetchFn k cfg msg hcfg hen hfail []
      ((spec.getD allSections).filter (fun s => highPrioritySections.contains s))
      (([(spec.getD allSections).filter
          (fun s => !highPrioritySections.contains s)] :
        List (List String)).filter (fun b => !b.isEmpty))
      ([] : StrMap (List Article)) { st with loading := true } ([] : List Event)
      hkhp hpost
    rw [hbeq]
    exact ⟨hmain.1, hmain.2, by rw [← hbeq]; exact hthird⟩
  · have hckf : highPrioritySections.contains k = false := by simpa using hck
    have hklp : k ∈ (spec.getD allSections).filter
        (fun s => !highPrioritySections.contains s) :=
      List.mem_filter.mpr ⟨hmem, by simp only [hckf, Bool.not_false]⟩
    by_cases hhp : ((spec.getD allSections).filter
        (fun s => highPrioritySections.contains s)).isEmpty
    · have hbeq : (([(spec.getD allSections).filter
            (fun s => highPrioritySections.contains s),
          (spec.getD allSections).filter
            (fun s => !highPrioritySections.contains s)] :
          List (List String)).filter (fun b => !b.isEmpty)) =
          [] ++ ((spec.getD allSections).filter
            (fun s => !highPrioritySections.contains s)) :: [] := by
        rw [List.filter_cons, if_neg (by
            simp only [hhp, Bool.not_true]
            exact Bool.false_ne_true), List.filter_cons,
          if_pos (by
            simp only [List.isEmpty_eq_false.mpr (List.ne_nil_of_mem hklp),
              Bool.not_false]), List.filter_nil]
        rfl
      have hmain := @processBatches_fail settings fetchFn k cfg msg hcfg hen hfail []
        ((spec.getD allSections).filter (fun s => !highPrioritySections.contains s))
        ([] : List (List String))
        ([] : StrMap (List Article)) { st with loading := true } ([] : List Event)
        hklp (by intro b2 hb2; simp at hb2)
      rw [hbeq]
      exact ⟨hmain.1, hmain.2, by rw [← hbeq]; exact hthird⟩
    · have hbeq : (([(spec.getD allSections).filter
            (fun s => highPrioritySections.contains s),
          (spec.getD allSections).filter
            (fun s => !highPrioritySections.contains s)] :
          List (List String)).filter (fun b => !b.isEmpty)) =
          [((spec.getD allSections).filter
            (fun s => highPrioritySections.contains s))] ++
          ((spec.getD allSections).filter
            (fun s => !highPrioritySections.contains s)) :: [] := by
        have hhpb : ((spec.getD allSections).filter
            (fun s => highPrioritySections.contains s)).isEmpty = false := by
          simpa using hhp
        rw [List.filter_cons, if_pos (by simp only [hhpb, Bool.not_false]),
          List.filter_cons,
          if_pos (by
            simp only [List.isEmpty_eq_false.mpr (List.ne_nil_of_mem hklp),
              Bool.not_false]), List.filter_nil]
        rfl
      have hmain := @processBatches_fail settings fetchFn k cfg msg hcfg hen hfail
        [((spec.getD allSections).filter (fun s => highPrioritySections.contains s))]
        ((spec.getD allSections).filter (fun s => !highPrioritySections.contains s))
        ([] : List (List String))
        ([] : StrMap (List Article)) { st with loading := true } ([] : List Event)
        hklp (by intro b2 hb2; simp at hb2)
      rw [hbeq]
      exact ⟨hmain.1, hmain.2, by rw [← hbeq]; exact hthird⟩

/-- C3 witness: a concrete refresh whose business adapter rejects with
"boom" records exactly that message for "business", contributes the
empty list for it, and still fetches the other enabled section. -/
theorem claim_C3_witness :
    ("business" ∈ (some ["world", "business"] : Option (List String)).getD allSections) ∧
    (StrMap.find? exSettings.sections "business" = some ⟨true, some 3⟩) ∧
    ((refreshNews (some exSettings) exFetchFail 0
        (some ["world", "business"]) st0).1.errors.find? "business" = some "boom" ∧
    (∃ ev ∈ (refreshNews (some exSettings) exFetchFail 0
        (some ["world", "business"]) st0).2,
      ∃ acc nd bk er, ev = Event.publish acc nd bk er ∧
        acc.find? "business" = some ([] : List Article) ∧
        er.find? "business" = some "boom") ∧
    (∀ k2 ∈ (some ["world", "business"] : Option (List String)).getD allSections,
      ∀ cfg2, StrMap.find? exSettings.sections k2 = some cfg2 → cfg2.enabled = true →
      Event.fetch k2 (jsCount cfg2.count + 5) exSettings.newsSources ∈
        (refreshNews (some exSettings) exFetchFail 0
          (some ["world", "business"]) st0).2)) :=
  ⟨by decide, by decide,
    claim_C3 exSettings exFetchFail 0 (some ["world", "business"]) st0 "business"
      ⟨true, some 3⟩ "boom" (by decide) (by decide) (by decide) (by decide)⟩

/-- C4 witness: at a concrete publish event of a concrete refresh, the
shortlist is exactly the filtered, sorted, truncated accumulated set. -/
theorem claim_C4_witness :
    (Event.publish [("world", [exW1, exBW])]
        [("world", [exW1]), ("business", [exBW])] [exBW] [] ∈
      (refreshNews (some exSettings) exFetch 0 (some ["world"]) st0).2) ∧
    ([exBW] = (sortDescBy breakingOf
        ((flattenValues [("world", [exW1, exBW])]).filter
          (fun a => a.isBreaking || decide (breakingThreshold < breakingOf a)))).take 3 ∧
      ([exBW] : List Article).length ≤ 3 ∧
      ((∀ a ∈ flattenValues [("world", [exW1, exBW])],
          a.isBreaking = false ∧ breakingOf a ≤ breakingThreshold) → [exBW] = [])) :=
  ⟨by decide,
    (claim_C4 (some exSettings) exFetch 0 (some ["world"]) st0).2
      (Event.publish [("world", [exW1, exBW])]
        [("world", [exW1]), ("business", [exBW])] [exBW] [])
      (by decide) [("world", [exW1, exBW])]
      [("world", [exW1]), ("business", [exBW])] [exBW] [] rfl⟩

end NewsApp
